import Mathlib

/-!
Verification of the PropWatch-Cyprus corpus-construction pipeline.

Shallow embedding of the Python sources under `src/`:

* `src/src/preprocessing/text_cleaning.py` — `clean_text`, `classify_script`
* `src/src/preprocessing/filtering.py` — keyword gates and `filter_messages`
* `src/src/analysis/lemmatization.py` — `lemmatize_russian`, `lemmatize_greek`
* `src/src/analysis/frequency.py` — `ensure_list_column`, `compute_ngrams`
* `src/src/scraping/gdelt.py` — `_gdelt_query` retry loop, per-source loop
* `src/src/scraping/telegram.py` — per-channel loop

Strings are modelled as Lean `String` (a list of Unicode characters, matching
Python's `str` as a sequence of code points).  External capabilities (the
stanza morphological pipelines, `requests`, `ast.literal_eval`) are modelled
as explicit function parameters satisfying the interfaces the code consumes.
-/

namespace PropWatch

/-! ### Python `str.lower`

`charLowerPairs` tabulates Python's `str.lower` on the scripts this corpus
uses (ASCII Latin, the basic Cyrillic block with Ё, the basic Greek block
with the accented monotonic vowels).  Characters outside the table are
unchanged.  Python's contextual final-sigma rule (Σ at word end lowers to ς)
is simplified to the unconditional mapping Σ → σ; no theorem below depends
on sigma.
-/

def charLowerPairs : List (Char × Char) :=
  [ ('A','a'), ('B','b'), ('C','c'), ('D','d'), ('E','e'), ('F','f'), ('G','g'),
    ('H','h'), ('I','i'), ('J','j'), ('K','k'), ('L','l'), ('M','m'), ('N','n'),
    ('O','o'), ('P','p'), ('Q','q'), ('R','r'), ('S','s'), ('T','t'), ('U','u'),
    ('V','v'), ('W','w'), ('X','x'), ('Y','y'), ('Z','z'),
    ('А','а'), ('Б','б'), ('В','в'), ('Г','г'), ('Д','д'), ('Е','е'), ('Ж','ж'),
    ('З','з'), ('И','и'), ('Й','й'), ('К','к'), ('Л','л'), ('М','м'), ('Н','н'),
    ('О','о'), ('П','п'), ('Р','р'), ('С','с'), ('Т','т'), ('У','у'), ('Ф','ф'),
    ('Х','х'), ('Ц','ц'), ('Ч','ч'), ('Ш','ш'), ('Щ','щ'), ('Ъ','ъ'), ('Ы','ы'),
    ('Ь','ь'), ('Э','э'), ('Ю','ю'), ('Я','я'), ('Ё','ё'),
    ('Α','α'), ('Β','β'), ('Γ','γ'), ('Δ','δ'), ('Ε','ε'), ('Ζ','ζ'), ('Η','η'),
    ('Θ','θ'), ('Ι','ι'), ('Κ','κ'), ('Λ','λ'), ('Μ','μ'), ('Ν','ν'), ('Ξ','ξ'),
    ('Ο','ο'), ('Π','π'), ('Ρ','ρ'), ('Σ','σ'), ('Τ','τ'), ('Υ','υ'), ('Φ','φ'),
    ('Χ','χ'), ('Ψ','ψ'), ('Ω','ω'),
    ('Ά','ά'), ('Έ','έ'), ('Ή','ή'), ('Ί','ί'), ('Ό','ό'), ('Ύ','ύ'), ('Ώ','ώ') ]

def charLower (c : Char) : Char :=
  (charLowerPairs.lookup c).getD c

/-- Python `str.lower`, applied code point by code point. -/
def pyLower (s : String) : String :=
  ⟨s.data.map charLower⟩

/-! ### Character classes

`wordChar` models Python's regex `\w` restricted to the scripts this corpus
processes: ASCII alphanumerics, the underscore, the basic Cyrillic block with
ё/Ё, and the Greek letters with monotonic accents.  `alphaChar` models
Python's `str.isalpha` on the same scripts (letters only, no digits, no
underscore).
-/

def cyrillicLetter (c : Char) : Bool :=
  ('а' ≤ c && c ≤ 'я') || ('А' ≤ c && c ≤ 'Я') || c = 'ё' || c = 'Ё'

def greekLetter (c : Char) : Bool :=
  ('α' ≤ c && c ≤ 'ω') || ('Α' ≤ c && c ≤ 'Ω') ||
  ('ά' ≤ c && c ≤ 'ώ') || ('Ά' ≤ c && c ≤ 'Ώ')

def latinLetter (c : Char) : Bool :=
  ('a' ≤ c && c ≤ 'z') || ('A' ≤ c && c ≤ 'Z')

def asciiDigit (c : Char) : Bool :=
  '0' ≤ c && c ≤ '9'

def wordChar (c : Char) : Bool :=
  latinLetter c || asciiDigit c || c = '_' || cyrillicLetter c || greekLetter c

def alphaChar (c : Char) : Bool :=
  latinLetter c || cyrillicLetter c || greekLetter c

/-- Python `str.isalpha`: non-empty and every code point alphabetic
(restricted to the corpus scripts, see `alphaChar`). -/
def pyIsAlpha (s : String) : Bool :=
  s ≠ "" && s.data.all alphaChar

/-! ### `clean_text` (src/src/preprocessing/text_cleaning.py lines 18-32)

```python
def clean_text(text) -> str:
    if pd.isna(text):
        return ""
    text = str(text)
    text = re.sub(r"http\S+|www\.\S+", "", text)
    text = re.sub(r"\*\*|__|~~|`", "", text)
    text = re.sub(r"[^\w\s\.,!?:\"'\-—«»]", " ", text)
    text = re.sub(r"\s+", " ", text).strip()
    return text
```

The four `re.sub` passes are embedded one by one, each as a left-to-right
scan matching Python's `re.sub` semantics (earliest match, greedy `\S+`,
scanning resumes after the removed match).  A missing (`NaN`) input is
modelled as `none`.
-/

/-- One attempted match of `http\S+|www\.\S+` at the head of `l`: if the
head matches, returns the remainder of the list after the (greedy) match. -/
def matchUrl (l : List Char) : Option (List Char) :=
  match l with
  | 'h' :: 't' :: 't' :: 'p' :: c :: rest =>
    if c.isWhitespace then none
    else some ((c :: rest).dropWhile fun d => !d.isWhitespace)
  | 'w' :: 'w' :: 'w' :: '.' :: c :: rest =>
    if c.isWhitespace then none
    else some ((c :: rest).dropWhile fun d => !d.isWhitespace)
  | _ => none

/-- Fuel-indexed scan for `re.sub(r"http\S+|www\.\S+", "", text)`:
at every position try the alternation; on a match, drop it and resume after
it, otherwise emit the character and advance.  `fuel ≥ l.length` suffices
(each match removes at least four characters). -/
def urlSubF : Nat → List Char → List Char
  | 0, l => l
  | _ + 1, [] => []
  | fuel + 1, c :: cs =>
    match matchUrl (c :: cs) with
    | some rest => urlSubF fuel rest
    | none => c :: urlSubF fuel cs

/-- `re.sub(r"http\S+|www\.\S+", "", ·)` on the character list. -/
def urlSub (l : List Char) : List Char := urlSubF l.length l

/-- The backquote character `` ` `` (U+0060). -/
def backquote : Char := Char.ofNat 96

/-- `re.sub(r"\*\*|__|~~|`", "", ·)`: remove Telegram markdown tokens —
at each position try `**`, `__`, `~~`, then the single backquote, else keep
the character and advance. -/
def mdSub : List Char → List Char
  | [] => []
  | [c] => if c = backquote then [] else [c]
  | c :: d :: rest =>
    if c = '*' ∧ d = '*' then mdSub rest
    else if c = '_' ∧ d = '_' then mdSub rest
    else if c = '~' ∧ d = '~' then mdSub rest
    else if c = backquote then mdSub (d :: rest)
    else c :: mdSub (d :: rest)

/-- The allow-list of `re.sub(r"[^\w\s\.,!?:\"'\-—«»]", " ", ·)`:
word characters, whitespace, and the small punctuation set (including the
em-dash — and the angle quotes « »). -/
def allowedChar (c : Char) : Bool :=
  wordChar c || c.isWhitespace ||
  c = '.' || c = ',' || c = '!' || c = '?' || c = ':' ||
  c = '"' || c = '\'' || c = '-' || c = '—' || c = '«' || c = '»'

/-- Replace every character outside the allow-list by a space. -/
def allowSub (l : List Char) : List Char :=
  l.map fun c => if allowedChar c then c else ' '

/-- `re.sub(r"\s+", " ", ·)`: collapse every maximal whitespace run to a
single space (keeping the last character of each run as the single `' '`). -/
def wsCollapse : List Char → List Char
  | [] => []
  | [c] => if c.isWhitespace then [' '] else [c]
  | c :: d :: rest =>
    if c.isWhitespace && d.isWhitespace then wsCollapse (d :: rest)
    else (if c.isWhitespace then ' ' else c) :: wsCollapse (d :: rest)

/-- Python `str.strip`: drop leading and trailing whitespace. -/
def wsTrim (l : List Char) : List Char :=
  ((l.dropWhile Char.isWhitespace).reverse.dropWhile Char.isWhitespace).reverse

/-- `clean_text` from src/src/preprocessing/text_cleaning.py (lines 18-32);
`none` models a missing (`NaN`) input. -/
def clean_text (text : Option String) : String :=
  match text with
  | none => ""
  | some s => ⟨wsTrim (wsCollapse (allowSub (mdSub (urlSub s.data))))⟩

/-! ### `classify_script` (src/src/preprocessing/text_cleaning.py lines 59-67)

```python
    cyrillic = len(re.findall(r"[а-яА-ЯёЁ]", text))
    latin    = len(re.findall(r"[a-zA-Z]", text))
    greek    = len(re.findall(r"[α-ωΑ-Ωά-ώΆ-Ώ]", text))
    counts   = {"cyrillic": cyrillic, "latin": latin, "greek": greek}
    dominant = max(counts, key=counts.get)
    return dominant if counts[dominant] > 0 else "unknown"
```

In the source file the `def classify_script(text):` header line itself is
absent (the docstring and body at lines 59-67 are present, and the function
is called at line 88); the signature is reconstructed from the caller and
docstring.  `max` over the dict with `key=counts.get` returns the first key
with maximal value in insertion order cyrillic, latin, greek; the nested
conditionals below reproduce exactly that first-max choice.
-/

def cyrillicCount (s : String) : Nat := (s.data.filter cyrillicLetter).length

def latinCount (s : String) : Nat := (s.data.filter latinLetter).length

def greekCount (s : String) : Nat := (s.data.filter greekLetter).length

def classify_script : Option String → String
  | none => "unknown"
  | some t =>
    if t = "" then "unknown"
    else if cyrillicCount t ≥ latinCount t ∧ cyrillicCount t ≥ greekCount t then
      (if cyrillicCount t > 0 then "cyrillic" else "unknown")
    else if latinCount t ≥ greekCount t then
      (if latinCount t > 0 then "latin" else "unknown")
    else
      (if greekCount t > 0 then "greek" else "unknown")

/-! ### Keyword gates (src/src/preprocessing/filtering.py)

`_matches_any` (lines 114-123) lowercases the *text* once, then for each
keyword uses `re.search` when the keyword contains the literal two-character
sequence `\b`, and Python substring containment (`kw in text_lower`)
otherwise.  The keyword itself is never lowercased.

Every boundary-anchored pattern configured in this repository has the shape
`\bliteral\b` with a plain literal between the anchors; `reSearchWB` models
`re.search` for exactly that shape (`\b` matches at a transition between a
`\w` character and a non-`\w` character or a string edge).
-/

/-- Substring containment on character lists (Python `needle in hay`). -/
def hasSubL (pat l : List Char) : Bool :=
  l.tails.any fun t => pat.isPrefixOf t

/-- Python `needle in hay` on strings. -/
def strContains (hay needle : String) : Bool := hasSubL needle.data hay.data

/-- Strip a leading and a trailing `\b` (two characters: backslash, b). -/
def stripWB (s : String) : String :=
  let l := s.data
  let l := if ['\\', 'b'].isPrefixOf l then l.drop 2 else l
  let l := if ['b', '\\'].isPrefixOf l.reverse then (l.reverse.drop 2).reverse else l
  ⟨l⟩

/-- Does the literal `core` occur in `l` at offset `i` with word boundaries
on both sides? -/
def wbAt (core l : List Char) (i : Nat) : Bool :=
  core.isPrefixOf (l.drop i)
  && (i == 0 || !wordChar (l.getD (i - 1) ' '))
  && (match (l.drop (i + core.length)).head? with
      | none => true
      | some c => !wordChar c)

/-- Search the whole list for a boundary-delimited occurrence of `core`. -/
def wbSearchL (core l : List Char) : Bool :=
  (List.range (l.length + 1)).any fun i => wbAt core l i

/-- `re.search(kw, text)` for this repository's boundary patterns
(`\bliteral\b`). -/
def reSearchWB (pattern t : String) : Bool :=
  wbSearchL (stripWB pattern).data t.data

/-- The per-keyword test of `_matches_any` / `has_inclusion`: pattern search
when the keyword declares a `\b` anchor, substring containment otherwise.
`textLower` is the already-lowercased text. -/
def keywordHit (kw : String) (textLower : String) : Bool :=
  if strContains kw "\\b" then reSearchWB kw textLower
  else strContains textLower kw

/-- `_matches_any(text, keywords)` from filtering.py lines 114-123. -/
def matches_any (text : String) (keywords : List String) : Bool :=
  keywords.any fun kw => keywordHit kw (pyLower text)

/-- `EXCLUDE_KEYWORDS` (filtering.py lines 16-23): every entry is commented
out in the source, so the configured list is empty. -/
def EXCLUDE_KEYWORDS : List String := []

/-- `INCLUDE_KEYWORDS` (filtering.py lines 26-109), in source order. -/
def INCLUDE_KEYWORDS : List (String × List String) :=
  [ ("WAR",
     [ "war", "invasion", "conflict", "military", "army", "frontline",
       "attack",
       "войн", "воен", "арми", "фронт", "наступлен", "атак",
       "\\bсво\\b", "спецоперац",
       "πόλεμ", "εισβολ", "σύγκρουσ", "στρατ", "μέτωπ", "επίθεσ" ]),
    ("KEY_ACT",
     [ "putin", "zelensky", "biden", "nato", "eu", "europe",
       "kremlin", "moscow", "kiev", "kyiv", "trump",
       "путин", "зеленск", "байден", "нато", "\\bес\\b", "европ",
       "кремл", "москв", "киев", "росси", "укоаин", "\\bрф\\b",
       "трамп",
       "πούτιν", "ζελένσκ", "μπάιντεν", "νατο", "\\bεε\\b", "ευρώπ",
       "κρεμλίν", "μόσχ", "κίεβ", "ρωσί", "ουκραιν", "τραμπ" ]),
    ("IDEAL_TER",
     [ "nazi", "fascist", "propaganda", "fake", "truth", "west",
       "imperial", "russophobia",
       "наци", "фашист", "пропаганд", "фейк", "правд", "запад",
       "импер", "русофоб", "освобожд",
       "ναζ", "φασίστ", "προπαγάνδ", "ψεύδ", "αλήθει",
       "δύσ", "ιμπεριαλ", "ρωσοφοβ" ]),
    ("CY_DIV",
     [ "cyprus problem", "reunification", "occupied", "buffer zone",
       "κυπριακό", "επανένωσ", "κατεχόμεν", "πράσινη γραμμή",
       "кипрск", "разделени", "оккупир", "турецк" ]),
    ("EU_SKEP",
     [ "brussels", "eu sanctions", "sovereignty",
       "βρυξέλλ", "κυριαρχί", "κυρώσεις", "ευρωπαϊκ",
       "брюссел", "суверенит", "санкц", "евросоюз" ]),
    ("BAIL_IN",
     [ "bail.in", "haircut", "imf", "bank levy", "deposit",
       "κούρεμα", "κυπριακή τράπεζα", "ΔΝΤ", "καταθέσ",
       "стрижк", "кипрск банк", "мвф", "вклад" ]),
    ("ORTHO",
     [ "orthodox", "church", "civilisation", "christian values",
       "ορθόδοξ", "εκκλησί", "χριστιανικ", "πολιτισμ",
       "православ", "церков", "цивилизац", "христианск" ]),
    ("ELIT",
     [ "corrupt elite", "deep state", "establishment", "oligarch",
       "ελίτ", "διαφθορ", "κατεστημέν", "παρακράτ",
       "элит", "коррупц", "истеблишмент", "олигарх" ]),
    ("MIGR",
     [ "migrant", "refugee", "illegal immigration", "border",
       "μετανάστ", "πρόσφυγ", "παράνομ", "σύνορ",
       "мигрант", "беженц", "нелегальн", "границ" ]) ]

/-- `has_exclusion` (filtering.py lines 126-130) on string input. -/
def has_exclusion (t : String) : Bool := matches_any t EXCLUDE_KEYWORDS

/-- `has_inclusion` (filtering.py lines 133-146) on string input: the same
per-keyword test applied across every category's pattern list. -/
def has_inclusion (t : String) : Bool :=
  INCLUDE_KEYWORDS.any fun cat => cat.2.any fun p => keywordHit p (pyLower t)

/-! ### `filter_messages` (src/src/preprocessing/filtering.py lines 151-173)

A row carries its stable identifier and the filtered text column (the
pipeline applies the filter to the normalized text, spec name
`text_cleaned`).  The four steps: length > 20, drop `has_exclusion`, keep
`has_inclusion`, `drop_duplicates(subset=[text_col], keep="first")`.
-/

structure Row where
  message_id : Nat
  text_cleaned : String
deriving DecidableEq, Repr

/-- `DataFrame.drop_duplicates(subset=[text_col], keep="first")`: keep a row
only when its text has not been seen earlier. -/
def dropDupFirst : List Row → List String → List Row
  | [], _ => []
  | r :: rest, seen =>
    if r.text_cleaned ∈ seen then dropDupFirst rest seen
    else r :: dropDupFirst rest (r.text_cleaned :: seen)

def filter_messages (rows : List Row) : List Row :=
  let s1 := rows.filter fun r => 20 < r.text_cleaned.length
  let s2 := s1.filter fun r => !has_exclusion r.text_cleaned
  let s3 := s2.filter fun r => has_inclusion r.text_cleaned
  dropDupFirst s3 []

/-! ### Lemmatization (src/src/analysis/lemmatization.py lines 81-148)

The stanza pipeline (the variant cited by the specification; the same module
later re-binds the names to a spaCy variant with the same filtering shape)
is an external capability: it turns a text into a list of sentences, each a
list of words exposing a surface form, a lemma and a coarse POS tag
(`word.text`, `word.lemma`, `word.upos`).  It is passed in as a function
parameter.  The source field `lemma` is spelled `lemma_` here because
`lemma` is a Lean keyword.  A missing (`NaN`) input is modelled as `none`.
-/

structure StanzaWord where
  text : String
  lemma_ : String
  upos : String
deriving DecidableEq, Repr

/-- `_RU_STOPWORDS` (lemmatization.py lines 62-68). -/
def RU_STOPWORDS : List String :=
  [ "и", "в", "не", "на", "что", "с", "по", "как", "это", "к",
    "из", "но", "за", "то", "до", "же", "от", "а", "или", "об",
    "для", "при", "так", "быть", "он", "она", "они", "мы", "вы",
    "его", "её", "их", "наш", "ваш", "этот", "тот", "все",
    "уже", "ещё", "даже", "только", "если", "когда", "чтобы" ]

/-- `_EL_STOPWORDS` (lemmatization.py lines 71-76). -/
def EL_STOPWORDS : List String :=
  [ "και", "το", "τα", "τη", "τον", "την", "τους", "τις", "της",
    "με", "για", "από", "στο", "στη", "στον", "στην", "στα",
    "που", "να", "θα", "αλλά", "ή", "αν", "ως", "ότι", "είναι",
    "δεν", "μας", "σας", "τους", "αυτό", "αυτή", "αυτός", "κι" ]

/-- The guard `str(text).strip() == ""`: after stripping surrounding
whitespace the text is empty, i.e. every character is whitespace. -/
def pyBlank (s : String) : Bool := s.data.all Char.isWhitespace

/-- The shared comprehension filter of `lemmatize_russian` /
`lemmatize_greek`: keep a word when its lemma is truthy, its lowercased
lemma is not a stop word, its POS is not PUNCT/SYM/X, its *surface text* is
purely alphabetic, and its *surface text* is longer than 2 characters. -/
def stanzaKeep (stopwords : List String) (w : StanzaWord) : Bool :=
  w.lemma_ ≠ "" &&
  !(stopwords.contains (pyLower w.lemma_)) &&
  !(["PUNCT", "SYM", "X"].contains w.upos) &&
  pyIsAlpha w.text &&
  decide (2 < w.text.length)

/-- `lemmatize_russian` (lemmatization.py lines 81-113). -/
def lemmatize_russian (nlp : String → List (List StanzaWord)) :
    Option String → List String
  | none => []
  | some t =>
    if pyBlank t then []
    else (nlp t).flatMap fun sentence =>
      (sentence.filter (stanzaKeep RU_STOPWORDS)).map fun w => pyLower w.lemma_

/-- `lemmatize_greek` (lemmatization.py lines 116-148). -/
def lemmatize_greek (nlp : String → List (List StanzaWord)) :
    Option String → List String
  | none => []
  | some t =>
    if pyBlank t then []
    else (nlp t).flatMap fun sentence =>
      (sentence.filter (stanzaKeep EL_STOPWORDS)).map fun w => pyLower w.lemma_

/-! ### Frequency / n-grams (src/src/analysis/frequency.py) -/

/-- One cell of a pandas column, as `ast.literal_eval`-based code sees it:
a string, an actual Python list, or anything else. -/
inductive PyCell where
  | str (s : String)
  | list (xs : List String)
  | other
deriving DecidableEq

/-- The lambda of `ensure_list_column` (frequency.py lines 10-12):
`ast.literal_eval(x) if isinstance(x, str) else []`, with `ast.literal_eval`
passed in as an external capability. -/
def ensure_list_cell (litEval : String → List String) : PyCell → List String
  | .str s => litEval s
  | _ => []

/-- `ensure_list_column` (frequency.py lines 10-12). -/
def ensure_list_column (litEval : String → List String) (col : List PyCell) :
    List (List String) :=
  col.map (ensure_list_cell litEval)

/-- All length-`n` contiguous windows of `l` (nltk `ngrams(l, n)` for
`n ≥ 1`). -/
def windowsAux {α : Type} (n : Nat) : List α → List (List α)
  | [] => []
  | c :: cs =>
    if (c :: cs).length < n then [] else (c :: cs).take n :: windowsAux n cs

/-- nltk `ngrams(l, n)`: for `n = 0` the underlying `zip()` of zero
iterators is empty. -/
def windowsN {α : Type} (n : Nat) (l : List α) : List (List α) :=
  if n = 0 then [] else windowsAux n l

/-- The n-gram accumulation loop of `compute_ngrams` (frequency.py lines
31-34): only sequences of length ≥ n contribute their windows. -/
def allNgrams (n : Nat) (ls : List (List String)) : List (List String) :=
  ls.flatMap fun l => if n ≤ l.length then windowsN n l else []

/-- The key sequence of a `collections.Counter` built from a list:
first-occurrence order, duplicates removed. -/
def dedupKeepFirst {α : Type} [DecidableEq α] : List α → List α → List α
  | [], _ => []
  | x :: xs, seen =>
    if x ∈ seen then dedupKeepFirst xs seen
    else x :: dedupKeepFirst xs (x :: seen)

/-- `" ".join` on character lists. -/
def joinSp : List (List Char) → List Char
  | [] => []
  | [w] => w
  | w :: rest => w ++ ' ' :: joinSp rest

/-- Python `" ".join(ws)`. -/
def joinSpace (ws : List String) : String := ⟨joinSp (ws.map String.data)⟩

/-- Python `s.split(" ")` on character lists (single-space separator,
empty fields kept). -/
def splitSp : List Char → List (List Char)
  | [] => [[]]
  | ' ' :: rest => [] :: splitSp rest
  | c :: rest =>
    match splitSp rest with
    | w :: ws => (c :: w) :: ws
    | [] => [[c]]

/-- Python `s.split(" ")`. -/
def splitSpace (s : String) : List String := (splitSp s.data).map fun w => ⟨w⟩

/-- Stable insertion for descending sort by count (`sorted(rows,
key=lambda x: x[1], reverse=True)` is stable: ties keep original order). -/
def insDesc (x : String × Nat) : List (String × Nat) → List (String × Nat)
  | [] => [x]
  | y :: ys => if y.2 ≤ x.2 then x :: y :: ys else y :: insDesc x ys

def sortByCountDesc : List (String × Nat) → List (String × Nat)
  | [] => []
  | x :: xs => insDesc x (sortByCountDesc xs)

/-- `compute_ngrams` (frequency.py lines 25-46): collect windows from
sequences of length ≥ n, count them (Counter iterates keys in
first-occurrence order), keep counts ≥ `min_freq`, join each n-gram with
single spaces, sort descending by count. -/
def compute_ngrams (ls : List (List String)) (n : Nat) (min_freq : Nat) :
    List (String × Nat) :=
  let allNg := allNgrams n ls
  let items := (dedupKeepFirst allNg []).map fun g => (g, allNg.count g)
  let rows := (items.filter fun p => min_freq ≤ p.2).map fun p =>
    (joinSpace p.1, p.2)
  sortByCountDesc rows

/-! ### `_gdelt_query` retry loop (src/src/scraping/gdelt.py lines 72-89)

```python
    for attempt in range(1, retries + 1):
        wait = base_backoff * attempt
        time.sleep(wait)
        try:
            resp = requests.get(GDELT_API, params=params, timeout=30)
            resp.raise_for_status()
            return resp.json().get("articles", [])
        except requests.HTTPError as e:
            if resp.status_code == 429:
                continue
            raise
        except requests.RequestException as e:
            if attempt == retries:
                raise
    return []
```

The network is modelled as a function from the attempt number to an outcome:
success with a list of articles, an HTTP status error (raised by
`raise_for_status`), or a non-HTTP request failure (timeout, connection
error).  `gdeltQuery` returns the trace of waits slept before each attempt
made, and either the returned articles or the exception that propagated.
-/

inductive GdeltOutcome where
  | ok (articles : List String)
  | httpError (status : Nat)
  | requestError
deriving DecidableEq

inductive GdeltFailure where
  | httpError (status : Nat)
  | requestError
deriving DecidableEq

/-- The retry loop: current attempt number and remaining attempt count
(the loop runs attempts `1..retries`, so `remaining = 1` — inner count `0` —
marks the final attempt, the Python `attempt == retries`). -/
def gdeltGo (env : Nat → GdeltOutcome) (base : ℚ) :
    Nat → Nat → List ℚ × Except GdeltFailure (List String)
  | _, 0 => ([], .ok [])
  | attempt, n + 1 =>
    match env attempt with
    | .ok arts => ([base * (attempt : ℚ)], .ok arts)
    | .httpError s =>
      if s = 429 then
        (base * (attempt : ℚ) :: (gdeltGo env base (attempt + 1) n).1,
         (gdeltGo env base (attempt + 1) n).2)
      else ([base * (attempt : ℚ)], .error (.httpError s))
    | .requestError =>
      if n = 0 then ([base * (attempt : ℚ)], .error .requestError)
      else
        (base * (attempt : ℚ) :: (gdeltGo env base (attempt + 1) n).1,
         (gdeltGo env base (attempt + 1) n).2)

/-- `_gdelt_query` with `retries` attempts: trace of waits and result. -/
def gdeltQuery (env : Nat → GdeltOutcome) (base : ℚ) (retries : Nat) :
    List ℚ × Except GdeltFailure (List String) :=
  gdeltGo env base 1 retries

/-- A network that always answers HTTP 500. -/
def env500 : Nat → GdeltOutcome := fun _ => .httpError 500

/-- A network that answers HTTP 429 (rate limit) on every attempt. -/
def env429 : Nat → GdeltOutcome := fun _ => .httpError 429

/-- A network rate-limited (429) on attempt 1, then HTTP 500 from attempt 2. -/
def envLate500 : Nat → GdeltOutcome :=
  fun a => if a ≤ 1 then .httpError 429 else .httpError 500

/-- The expected linear-backoff trace: waits `base*1, base*2, ..., base*k`. -/
def linWaits (base : ℚ) (k : Nat) : List ℚ :=
  (List.range' 1 k).map fun i : Nat => base * (i : ℚ)

/-! ### Per-source collection loops

`scrape_archived` (gdelt.py lines 146-153) and `scrape_channels`
(telegram.py lines 97-109) both wrap the body handling one source in
`try/except`; on failure the source is skipped (`continue` / fall through to
the next channel) and the accumulated rows of other sources are untouched.
`fetch` abstracts "collect this one source" and may fail with an exception
value.
-/

def collectSources {σ ε ρ : Type} (fetch : σ → Except ε (List ρ)) :
    List σ → List ρ
  | [] => []
  | s :: rest =>
    (match fetch s with
     | .ok recs => recs
     | .error _ => []) ++ collectSources fetch rest

/-! ### Pattern occurrence machinery

`patAt ps l` — the predicate list `ps` matches a prefix of `l`;
`hasPat ps l` — it matches at some position.  Used to state "the output of a
cleaning pass contains no URL start / no markdown token / no double
whitespace", the invariants behind the idempotence analysis of
`clean_text`.
-/

def patAt : List (Char → Bool) → List Char → Bool
  | [], _ => true
  | _ :: _, [] => false
  | p :: ps, c :: cs => p c && patAt ps cs

def hasPat (ps : List (Char → Bool)) : List Char → Bool
  | [] => patAt ps []
  | c :: cs => patAt ps (c :: cs) || hasPat ps cs

def nonWs (c : Char) : Bool := !c.isWhitespace

def httpPat : List (Char → Bool) :=
  [fun c => c = 'h', fun c => c = 't', fun c => c = 't', fun c => c = 'p',
   nonWs]

def wwwPat : List (Char → Bool) :=
  [fun c => c = 'w', fun c => c = 'w', fun c => c = 'w', fun c => c = '.',
   nonWs]

/-- `l` contains a match of `http\S+|www\.\S+`. -/
def hasUrl (l : List Char) : Bool := hasPat httpPat l || hasPat wwwPat l

def starPat : List (Char → Bool) := [fun c => c = '*', fun c => c = '*']

def underPat : List (Char → Bool) := [fun c => c = '_', fun c => c = '_']

def tildePat : List (Char → Bool) := [fun c => c = '~', fun c => c = '~']

def tickPat : List (Char → Bool) := [fun c => c = backquote]

/-- `l` contains a markdown token `**`, `__`, `~~` or a backquote. -/
def hasMd (l : List Char) : Bool :=
  hasPat starPat l || hasPat underPat l || hasPat tildePat l || hasPat tickPat l

/-- `s` contains a markdown token (string form). -/
def hasMdS (s : String) : Bool := hasMd s.data

def wsPat : List (Char → Bool) := [Char.isWhitespace, Char.isWhitespace]

/-- Every whitespace character of `l` is a plain space. -/
def allWsSpace (l : List Char) : Bool :=
  l.all fun c => !c.isWhitespace || c = ' '

/-- Every predicate of the pattern accepts only non-whitespace characters. -/
def PatNonWs (ps : List (Char → Bool)) : Prop :=
  ∀ p ∈ ps, ∀ c, p c = true → c.isWhitespace = false

/-- `WsRel l m`: the list `m` agrees with `l` on a common prefix and then is
either exhausted or continues with a whitespace character.  This is the
shape invariant of `urlSub`'s output relative to its input: every removed
URL match extends to the next whitespace, so the output glues the unmatched
prefix directly onto whitespace (or the end). -/
inductive WsRel : List Char → List Char → Prop
  | nil (l : List Char) : WsRel l []
  | ws (l : List Char) (w : Char) (r : List Char)
      (hw : w.isWhitespace = true) : WsRel l (w :: r)
  | cons (c : Char) (l m : List Char) (h : WsRel l m) : WsRel (c :: l) (c :: m)

/-! ### Concrete inputs used to exercise the theorems -/

/-- A per-source fetcher whose source `1` fails. -/
def gFetch (n : Nat) : Except String (List Nat) :=
  if n = 1 then .error "boom" else .ok [n]

def warText : String := "the war in cyprus continues"

/-- Two rows with identical cleaned text but different ids. -/
def demoRows : List Row := [⟨1, warText⟩, ⟨2, warText⟩]

/-- A morphological pipeline emitting an ordinary Russian content word. -/
def demoNlp : String → List (List StanzaWord) :=
  fun _ => [[⟨"война", "война", "NOUN"⟩]]

/-- A morphological pipeline lemmatizing the numeral word `три` to the
digit `3` (an alphabetic surface token of length 3 whose lemma is neither
alphabetic nor longer than 2 characters). -/
def badNlp : String → List (List StanzaWord) :=
  fun _ => [[⟨"три", "3", "NUM"⟩]]

/-! ## Theorems -/

theorem lookup_mem {α β : Type} [DecidableEq α] :
    ∀ (l : List (α × β)) (a : α) (b : β), l.lookup a = some b → (a, b) ∈ l := by
  intro l a b
  induction l with
  | nil => intro h; simp [List.lookup] at h
  | cons p rest ih =>
    obtain ⟨x, y⟩ := p
    intro h
    by_cases hc : a = x
    · subst hc
      simp [List.lookup] at h
      subst h
      exact List.mem_cons_self _ _
    · have hb : (a == x) = false := beq_eq_false_iff_ne.mpr hc
      simp [List.lookup, hb] at h
      exact List.mem_cons_of_mem _ (ih h)

theorem charLower_pair_snd_not_key :
    ∀ p ∈ charLowerPairs, charLowerPairs.lookup p.2 = none := by decide

theorem charLower_idem (c : Char) : charLower (charLower c) = charLower c := by
  unfold charLower
  cases h : charLowerPairs.lookup c with
  | none => simp [h]
  | some v =>
    have hmem := lookup_mem charLowerPairs c v h
    have h2 : charLowerPairs.lookup v = none := charLower_pair_snd_not_key (c, v) hmem
    simp [h, h2]

theorem pyLower_idem (s : String) : pyLower (pyLower s) = pyLower s := by
  unfold pyLower
  congr 1
  rw [List.map_map]
  exact List.map_congr_left fun c _ => charLower_idem c

theorem matchUrl_some_length {l r : List Char} (h : matchUrl l = some r) :
    r.length < l.length := by
  unfold matchUrl at h
  split at h
  · split at h
    · exact absurd h (by simp)
    · rename_i c rest _
      have hd := (List.dropWhile_sublist (l := c :: rest) fun d => !d.isWhitespace).length_le
      simp at h
      subst h
      simp only [List.length_cons] at hd ⊢
      omega
  · split at h
    · exact absurd h (by simp)
    · rename_i c rest _
      have hd := (List.dropWhile_sublist (l := c :: rest) fun d => !d.isWhitespace).length_le
      simp at h
      subst h
      simp only [List.length_cons] at hd ⊢
      omega
  · exact absurd h (by simp)

/-- C2 (counterexample): on the exact scenario input the code does *not*
return `"Check this out!! #win"` — the `#` is outside the allow-list of the
third substitution and is replaced by a space. -/
theorem clean_text_scenario_counterexample :
    clean_text (some "Check this out!! http://x.co/y   #win") ≠
      "Check this out!! #win" := by decide

/-- C2 (amended): `clean_text` on the scenario input strips the URL, drops
the `#` (not in the character allow-list) and collapses whitespace, giving
exactly `"Check this out!! win"`. -/
theorem clean_text_scenario :
    clean_text (some "Check this out!! http://x.co/y   #win") =
      "Check this out!! win" := by decide

/-- C3: `classify_script` returns `"unknown"` iff the Cyrillic, Latin and
Greek character counts are all zero; whenever one script's count strictly
exceeds both others, that script is returned. -/
theorem classify_script_spec (t : String) :
    (classify_script (some t) = "unknown" ↔
      cyrillicCount t = 0 ∧ latinCount t = 0 ∧ greekCount t = 0)
  ∧ (latinCount t < cyrillicCount t → greekCount t < cyrillicCount t →
      classify_script (some t) = "cyrillic")
  ∧ (cyrillicCount t < latinCount t → greekCount t < latinCount t →
      classify_script (some t) = "latin")
  ∧ (cyrillicCount t < greekCount t → latinCount t < greekCount t →
      classify_script (some t) = "greek") := by
  have hemp : t = "" → cyrillicCount t = 0 ∧ latinCount t = 0 ∧ greekCount t = 0 := by
    intro h
    subst h
    exact ⟨rfl, rfl, rfl⟩
  simp only [classify_script]
  split_ifs with h0 h1 h2 h3 h4 h5
  · obtain ⟨hc, hl, hg⟩ := hemp h0
    refine ⟨⟨fun _ => ⟨hc, hl, hg⟩, fun _ => rfl⟩, ?_, ?_, ?_⟩ <;>
      exact fun a b => absurd a (by omega)
  · refine ⟨⟨fun h => absurd h (by decide), fun hz => absurd h2 (by omega)⟩,
      fun a b => rfl, fun a b => absurd a (by omega), fun a b => absurd a (by omega)⟩
  · refine ⟨⟨fun _ => ⟨by omega, by omega, by omega⟩, fun _ => rfl⟩, ?_, ?_, ?_⟩ <;>
      exact fun a b => absurd a (by omega)
  · refine ⟨⟨fun h => absurd h (by decide), fun hz => absurd h4 (by omega)⟩,
      fun a b => absurd ⟨Nat.le_of_lt a, Nat.le_of_lt b⟩ h1,
      fun a b => rfl, fun a b => absurd b (by omega)⟩
  · exfalso
    push_neg at h1
    omega
  · refine ⟨⟨fun h => absurd h (by decide), fun hz => absurd h5 (by omega)⟩,
      fun a b => absurd ⟨Nat.le_of_lt a, Nat.le_of_lt b⟩ h1,
      fun a b => absurd b (by omega), fun a b => rfl⟩
  · exfalso
    push_neg at h1
    omega

/-- C3 witness: a concrete Cyrillic-dominant text and the all-zero case. -/
theorem classify_script_spec_witness :
    classify_script (some "ббa") = "cyrillic" ∧
    classify_script (some "!!!") = "unknown" :=
  ⟨(classify_script_spec "ббa").2.1 (by decide) (by decide),
   ((classify_script_spec "!!!").1).mpr (by decide)⟩

/-- C10: `ensure_list_column` sends string cells through `literal_eval` and
every non-string cell — including an actual list — to `[]`; a column of
actual lists therefore becomes a column of empty lists. -/
theorem ensure_list_column_spec (litEval : String → List String)
    (xss : List (List String)) :
    (∀ s, ensure_list_cell litEval (.str s) = litEval s)
  ∧ (∀ c : PyCell, (∀ s, c ≠ .str s) → ensure_list_cell litEval c = [])
  ∧ ensure_list_column litEval (xss.map .list) =
      xss.map fun _ => ([] : List String) := by
  refine ⟨fun s => rfl, fun c hc => ?_, ?_⟩
  · cases c with
    | str s => exact absurd rfl (hc s)
    | list xs => rfl
    | other => rfl
  · unfold ensure_list_column
    rw [List.map_map]
    exact List.map_congr_left fun x _ => rfl

/-- C10 witness: a concrete list cell is flattened to `[]`. -/
theorem ensure_list_column_spec_witness :
    ensure_list_cell (fun _ => ["z"]) (PyCell.list ["a"]) = [] :=
  (ensure_list_column_spec (fun _ => ["z"]) []).2.1 (PyCell.list ["a"])
    (fun _ h => PyCell.noConfusion h)

/-- C9: a failing source inside the per-source collection loop is skipped;
the records collected from every other source are exactly what they would
have been had the failing source not been listed at all. -/
theorem collectSources_skips_failed {σ ε ρ : Type}
    (fetch : σ → Except ε (List ρ)) (pre post : List σ) (bad : σ) (e : ε)
    (hbad : fetch bad = .error e) :
    collectSources fetch (pre ++ bad :: post) =
      collectSources fetch (pre ++ post) := by
  induction pre with
  | nil => simp [collectSources, hbad]
  | cons s rest ih => simp [collectSources, ih]

/-- C9 witness: source `1` of `[0, 1, 2]` fails; the run returns exactly the
records of sources `0` and `2`. -/
theorem collectSources_skips_failed_witness :
    collectSources gFetch [0, 1, 2] = collectSources gFetch [0, 2] :=
  collectSources_skips_failed gFetch [0] [2] 1 "boom" rfl

theorem gdeltGo_trace (env : Nat → GdeltOutcome) (base : ℚ) :
    ∀ (n a : Nat),
      (gdeltGo env base a n).1 =
        (List.range' a (gdeltGo env base a n).1.length).map
          (fun i : Nat => base * (i : ℚ))
      ∧ (gdeltGo env base a n).1.length ≤ n := by
  intro n
  induction n with
  | zero => exact fun a => ⟨rfl, le_rfl⟩
  | succ n ih =>
    intro a
    simp only [gdeltGo]
    cases env a with
    | ok arts => simp [List.range'_succ]
    | httpError s =>
      by_cases hs : s = 429
      · obtain ⟨ht, hl⟩ := ih (a + 1)
        subst hs
        dsimp only
        rw [if_pos rfl]
        dsimp only
        constructor
        · simp only [List.length_cons, List.range'_succ, List.map_cons]
          rw [← ht]
        · simp only [List.length_cons]
          omega
      · simp [hs, List.range'_succ]
    | requestError =>
      by_cases hn : n = 0
      · simp [hn, List.range'_succ]
      · obtain ⟨ht, hl⟩ := ih (a + 1)
        dsimp only
        rw [if_neg hn]
        dsimp only
        constructor
        · simp only [List.length_cons, List.range'_succ, List.map_cons]
          rw [← ht]
        · simp only [List.length_cons]
          omega

theorem gdeltGo_no429 (env : Nat → GdeltOutcome) (base : ℚ) :
    ∀ (n a : Nat), (gdeltGo env base a n).2 ≠ .error (.httpError 429) := by
  intro n
  induction n with
  | zero => intro a h; exact Except.noConfusion h
  | succ n ih =>
    intro a
    simp only [gdeltGo]
    cases env a with
    | ok arts => intro h; exact Except.noConfusion h
    | httpError s =>
      by_cases hs : s = 429
      · simpa [hs] using ih (a + 1)
      · intro h
        simp only [if_neg hs] at h
        simp at h
        exact hs h
    | requestError =>
      by_cases hn : n = 0
      · intro h
        simp [hn] at h
      · simpa [hn] using ih (a + 1)

theorem gdeltGo_reqErr_len (env : Nat → GdeltOutcome) (base : ℚ) :
    ∀ (n a : Nat), (gdeltGo env base a n).2 = .error .requestError →
      (gdeltGo env base a n).1.length = n := by
  intro n
  induction n with
  | zero => intro a h; exact Except.noConfusion h
  | succ n ih =>
    intro a
    simp only [gdeltGo]
    cases env a with
    | ok arts => intro h; exact Except.noConfusion h
    | httpError s =>
      by_cases hs : s = 429
      · intro h
        simp only [hs, if_pos rfl] at h ⊢
        simp [ih (a + 1) h]
      · intro h
        simp only [if_neg hs] at h
        simp at h
    | requestError =>
      by_cases hn : n = 0
      · intro _
        simp [hn]
      · intro h
        simp only [if_neg hn] at h ⊢
        simp [ih (a + 1) h]

theorem gdeltGo_all429 (env : Nat → GdeltOutcome) (base : ℚ) :
    ∀ (n a : Nat), (∀ j, a ≤ j → j < a + n → env j = .httpError 429) →
      (gdeltGo env base a n).2 = .ok []
      ∧ (gdeltGo env base a n).1.length = n := by
  intro n
  induction n with
  | zero => exact fun a _ => ⟨rfl, rfl⟩
  | succ n ih =>
    intro a h
    have ha : env a = .httpError 429 := h a le_rfl (by omega)
    simp only [gdeltGo, ha]
    rw [if_pos trivial]
    obtain ⟨h2, h1⟩ := ih (a + 1) (fun j hj hj2 => h j (by omega) (by omega))
    exact ⟨h2, by simp [h1]⟩

theorem gdeltGo_httpRaise (env : Nat → GdeltOutcome) (base : ℚ) :
    ∀ (m n a s : Nat), m < n → s ≠ 429 →
      (∀ j, a ≤ j → j < a + m →
        env j = .httpError 429 ∨ env j = .requestError) →
      env (a + m) = .httpError s →
      (gdeltGo env base a n).2 = .error (.httpError s)
      ∧ (gdeltGo env base a n).1.length = m + 1 := by
  intro m
  induction m with
  | zero =>
    intro n a s hmn hs _ henv
    obtain ⟨n', rfl⟩ : ∃ n', n = n' + 1 := ⟨n - 1, by omega⟩
    rw [Nat.add_zero] at henv
    simp only [gdeltGo, henv]
    rw [if_neg hs]
    exact ⟨rfl, rfl⟩
  | succ m ih =>
    intro n a s hmn hs hpre henv
    obtain ⟨n', rfl⟩ : ∃ n', n = n' + 1 := ⟨n - 1, by omega⟩
    have hmn' : m < n' := by omega
    have henv' : env (a + 1 + m) = .httpError s := by
      rw [show a + 1 + m = a + (m + 1) by omega]
      exact henv
    have hpre' : ∀ j, a + 1 ≤ j → j < a + 1 + m →
        env j = .httpError 429 ∨ env j = .requestError :=
      fun j h1 h2 => hpre j (by omega) (by omega)
    obtain ⟨hres, hlen⟩ := ih n' (a + 1) s hmn' hs hpre' henv'
    cases hpre a le_rfl (by omega) with
    | inl h429 =>
      simp only [gdeltGo, h429]
      rw [if_pos trivial]
      exact ⟨hres, by simp [hlen]⟩
    | inr hreq =>
      have hn' : n' ≠ 0 := by omega
      simp only [gdeltGo, hreq]
      rw [if_neg hn']
      exact ⟨hres, by simp [hlen]⟩

/-- C4 (amended): the controller sleeps `base * attempt` before every
attempt it makes, including the first; it makes at most `retries` attempts;
a 429 rate-limit response never propagates as an exception — it is always
retried, and a run in which every attempt is rate-limited makes all
`retries` attempts and returns `[]`; a non-HTTP request failure (timeout,
connection error) propagates only after the final attempt; a non-429 HTTP
error propagates immediately on whatever attempt it occurs — if every
earlier attempt was retried (rate-limited or a non-HTTP failure) and
attempt `k ≤ retries` yields HTTP status `s ≠ 429`, the loop stops right
there, after exactly `k` attempts. -/
theorem gdelt_retry_spec (env : Nat → GdeltOutcome) (base : ℚ) (retries : Nat) :
    (gdeltQuery env base retries).1 =
      linWaits base (gdeltQuery env base retries).1.length
  ∧ (gdeltQuery env base retries).1.length ≤ retries
  ∧ (gdeltQuery env base retries).2 ≠ .error (.httpError 429)
  ∧ ((gdeltQuery env base retries).2 = .error .requestError →
      (gdeltQuery env base retries).1.length = retries)
  ∧ (∀ k s : Nat, 1 ≤ k → k ≤ retries →
      (∀ j, 1 ≤ j → j < k →
        env j = .httpError 429 ∨ env j = .requestError) →
      s ≠ 429 → env k = .httpError s →
      (gdeltQuery env base retries).2 = .error (.httpError s)
      ∧ (gdeltQuery env base retries).1.length = k)
  ∧ ((∀ j, 1 ≤ j → j ≤ retries → env j = .httpError 429) →
      (gdeltQuery env base retries).2 = .ok []
      ∧ (gdeltQuery env base retries).1.length = retries) := by
  obtain ⟨ht, hl⟩ := gdeltGo_trace env base retries 1
  refine ⟨ht, hl, gdeltGo_no429 env base retries 1,
    gdeltGo_reqErr_len env base retries 1, ?_, ?_⟩
  · intro k s hk1 hk2 hpre hs henv
    have hm : k - 1 < retries := by omega
    have henv' : env (1 + (k - 1)) = .httpError s := by
      rw [show 1 + (k - 1) = k by omega]
      exact henv
    have hpre' : ∀ j, 1 ≤ j → j < 1 + (k - 1) →
        env j = .httpError 429 ∨ env j = .requestError :=
      fun j h1 h2 => hpre j h1 (by omega)
    obtain ⟨hres, hlen⟩ :=
      gdeltGo_httpRaise env base (k - 1) retries 1 s hm hs hpre' henv'
    refine ⟨hres, ?_⟩
    simp only [gdeltQuery]
    omega
  · intro h429
    exact gdeltGo_all429 env base retries 1 (fun j h1 h2 => h429 j h1 (by omega))

/-- C4 witness: with every response a 429 and `retries = 3`, all three
attempts are made and the controller returns `[]`; with a 429 on attempt 1
and an HTTP 500 on attempt 2 of 4, the 429 is retried and the 500 raises
immediately on attempt 2 — neither on the first nor on the final attempt. -/
theorem gdelt_retry_spec_witness :
    ((gdeltQuery env429 12 3).2 = .ok []
     ∧ (gdeltQuery env429 12 3).1.length = 3)
    ∧ ((gdeltQuery envLate500 12 4).2 = .error (.httpError 500)
       ∧ (gdeltQuery envLate500 12 4).1.length = 2) := by
  refine ⟨(gdelt_retry_spec env429 12 3).2.2.2.2.2 (fun j _ _ => rfl),
    (gdelt_retry_spec envLate500 12 4).2.2.2.2.1 2 500 (by decide) (by decide)
      (fun j h1 h2 => ?_) (by decide) (by decide)⟩
  have hj : j = 1 := by omega
  subst hj
  exact Or.inl (by decide)

/-- C4 counterexample: an HTTP 500 on the first of four attempts raises
immediately — after one attempt, not the final one — refuting "any other
request failure raises only on the final attempt". -/
theorem gdelt_http_error_raises_early :
    (gdeltQuery env500 12 4).2 = .error (.httpError 500)
    ∧ (gdeltQuery env500 12 4).1.length = 1
    ∧ (1 : Nat) ≠ 4 := by
  refine ⟨rfl, rfl, by decide⟩

theorem hasSubL_subset {pat l : List Char} (h : hasSubL pat l = true) :
    ∀ x ∈ pat, x ∈ l := by
  unfold hasSubL at h
  rw [List.any_eq_true] at h
  obtain ⟨t, ht, hp⟩ := h
  intro x hx
  have h1 : pat <+: t := List.isPrefixOf_iff_prefix.mp hp
  have h2 : t <:+ l := (List.mem_tails _ _).mp ht
  exact h2.subset (h1.subset hx)

theorem charLower_ne_Delta (c : Char) : charLower c ≠ 'Δ' := by
  intro h
  unfold charLower at h
  cases hl : charLowerPairs.lookup c with
  | none =>
    rw [hl] at h
    simp at h
    subst h
    exact absurd hl (by decide)
  | some v =>
    rw [hl] at h
    simp at h
    subst h
    have hmem := lookup_mem charLowerPairs c 'Δ' hl
    have : ∀ p ∈ charLowerPairs, p.2 ≠ 'Δ' := by decide
    exact this _ hmem rfl

/-- C5 (amended): keyword matching lowercases only the *text*, so a match is
invariant under the text's letter case; the keyword is used verbatim, so the
configured upper-case keyword `"ΔΝΤ"` can never match any text; a keyword
carrying a `\b` anchor is matched as a boundary pattern while a plain one is
matched by substring containment, as the behaviour on `"свобода"` (where
only the plain keyword fires) and on `"про сво и мир"` (where the anchored
keyword fires) shows. -/
theorem keyword_matching_spec :
    (∀ (t : String) (kws : List String),
      matches_any (pyLower t) kws = matches_any t kws)
  ∧ (∀ t : String, matches_any t ["ΔΝΤ"] = false)
  ∧ matches_any "свобода" ["\\bсво\\b"] = false
  ∧ matches_any "свобода" ["сво"] = true
  ∧ matches_any "про сво и мир" ["\\bсво\\b"] = true := by
  refine ⟨fun t kws => ?_, fun t => ?_, by decide, by decide, by decide⟩
  · simp only [matches_any, pyLower_idem]
  · cases hM : matches_any t ["ΔΝΤ"] with
    | false => rfl
    | true =>
      exfalso
      have hb : strContains "ΔΝΤ" "\\b" = false := by decide
      simp only [matches_any, List.any_cons, List.any_nil, Bool.or_false,
        keywordHit, hb, if_false] at hM
      have hD : 'Δ' ∈ (pyLower t).data :=
        hasSubL_subset hM 'Δ' (by decide)
      simp only [pyLower] at hD
      obtain ⟨c, -, hc⟩ := List.mem_map.mp hD
      exact charLower_ne_Delta c hc

/-- C5 counterexample: `"ΔΝΤ"` is a configured inclusion keyword (category
BAIL_IN).  On the very text `"δντ"` — the lowercasing of that keyword — the
keyword fails to match while its lowercased twin `"δντ"` matches, so whether
a keyword matches depends on the keyword's letter case; consequently the
inclusion gate rejects the text `"ΔΝΤ"` even though it contains the
configured keyword verbatim. -/
theorem keyword_case_counterexample :
    (INCLUDE_KEYWORDS.any fun cat => cat.2.contains "ΔΝΤ") = true
    ∧ pyLower "ΔΝΤ" = "δντ"
    ∧ matches_any "δντ" ["ΔΝΤ"] = false
    ∧ matches_any "δντ" ["δντ"] = true
    ∧ has_inclusion "ΔΝΤ" = false := by
  refine ⟨by decide, by decide, by decide, by decide, by decide⟩

theorem dropDupFirst_mem :
    ∀ (l : List Row) (seen : List String) (r : Row),
      r ∈ dropDupFirst l seen → r ∈ l := by
  intro l
  induction l with
  | nil => intro seen r h; simp [dropDupFirst] at h
  | cons x xs ih =>
    intro seen r h
    by_cases hx : x.text_cleaned ∈ seen
    · rw [dropDupFirst, if_pos hx] at h
      exact List.mem_cons_of_mem _ (ih seen r h)
    · rw [dropDupFirst, if_neg hx] at h
      rcases List.mem_cons.mp h with rfl | h2
      · exact List.mem_cons_self _ _
      · exact List.mem_cons_of_mem _ (ih _ r h2)

theorem dropDupFirst_spec :
    ∀ (l : List Row) (seen : List String) (r : Row),
      r ∈ dropDupFirst l seen →
      r.text_cleaned ∉ seen ∧
      (l.find? fun s => s.text_cleaned == r.text_cleaned) = some r := by
  intro l
  induction l with
  | nil => intro seen r h; simp [dropDupFirst] at h
  | cons x xs ih =>
    intro seen r h
    by_cases hx : x.text_cleaned ∈ seen
    · rw [dropDupFirst, if_pos hx] at h
      obtain ⟨hns, hfind⟩ := ih seen r h
      have hne : (x.text_cleaned == r.text_cleaned) = false := by
        rw [beq_eq_false_iff_ne]
        intro he
        exact hns (he ▸ hx)
      refine ⟨hns, ?_⟩
      have hstep : (List.find? (fun s => s.text_cleaned == r.text_cleaned) (x :: xs)) =
          List.find? (fun s => s.text_cleaned == r.text_cleaned) xs :=
        List.find?_cons_of_neg xs (by simp [hne])
      rw [hstep]
      exact hfind
    · rw [dropDupFirst, if_neg hx] at h
      rcases List.mem_cons.mp h with rfl | h2
      · refine ⟨hx, ?_⟩
        exact List.find?_cons_of_pos xs (by simp)
      · obtain ⟨hns, hfind⟩ := ih _ r h2
        have hne : r.text_cleaned ≠ x.text_cleaned := fun he =>
          hns (by rw [he]; exact List.mem_cons_self _ _)
        have hns2 : r.text_cleaned ∉ seen := fun hc =>
          hns (List.mem_cons_of_mem _ hc)
        have hbe : (x.text_cleaned == r.text_cleaned) = false := by
          rw [beq_eq_false_iff_ne]
          exact fun he => hne he.symm
        refine ⟨hns2, ?_⟩
        have hstep : (List.find? (fun s => s.text_cleaned == r.text_cleaned) (x :: xs)) =
            List.find? (fun s => s.text_cleaned == r.text_cleaned) xs :=
          List.find?_cons_of_neg xs (by simp [hbe])
        rw [hstep]
        exact hfind

theorem dropDupFirst_pairwise :
    ∀ (l : List Row) (seen : List String),
      List.Pairwise (fun a b => a.text_cleaned ≠ b.text_cleaned)
        (dropDupFirst l seen) := by
  intro l
  induction l with
  | nil => intro seen; simp [dropDupFirst]
  | cons x xs ih =>
    intro seen
    by_cases hx : x.text_cleaned ∈ seen
    · rw [dropDupFirst, if_pos hx]
      exact ih seen
    · rw [dropDupFirst, if_neg hx]
      refine List.Pairwise.cons ?_ (ih _)
      intro b hb he
      have hb2 := (dropDupFirst_spec xs (x.text_cleaned :: seen) b hb).1
      exact hb2 (he ▸ List.mem_cons_self _ _)

theorem filter_head_lift (P : String → Bool) (r : Row)
    (hPr : P r.text_cleaned = true) :
    ∀ rows : List Row,
      ((rows.filter fun s => P s.text_cleaned).find?
          fun s => s.text_cleaned == r.text_cleaned) = some r →
      (rows.find? fun s => s.text_cleaned == r.text_cleaned) = some r := by
  intro rows
  induction rows with
  | nil => intro h; simp at h
  | cons x xs ih =>
    intro hfind
    by_cases hq : (x.text_cleaned == r.text_cleaned) = true
    · have hteq : x.text_cleaned = r.text_cleaned := by rwa [beq_iff_eq] at hq
      have hPx : P x.text_cleaned = true := by rw [hteq]; exact hPr
      have hpos : ∀ l : List Row,
          List.find? (fun s => s.text_cleaned == r.text_cleaned) (x :: l) = some x :=
        fun l => List.find?_cons_of_pos l hq
      rw [List.filter_cons, if_pos hPx, hpos] at hfind
      rw [hpos]
      exact hfind
    · have hneg : ∀ l : List Row,
          List.find? (fun s => s.text_cleaned == r.text_cleaned) (x :: l) =
            List.find? (fun s => s.text_cleaned == r.text_cleaned) l :=
        fun l => List.find?_cons_of_neg l hq
      by_cases hPx : P x.text_cleaned = true
      · rw [List.filter_cons, if_pos hPx, hneg] at hfind
        rw [hneg]
        exact ih hfind
      · rw [List.filter_cons, if_neg hPx] at hfind
        rw [hneg]
        exact ih hfind

/-- C6: after the deduplication step of `filter_messages` no two surviving
rows share the same cleaned text, and every surviving row is exactly the
*first* row of the original input carrying its cleaned text (rows sharing a
text survive or die together through the three text-determined gates, so the
first gate survivor is also the first occurrence by input order). -/
theorem filter_messages_dedup (rows : List Row) :
    List.Pairwise (fun a b => a.text_cleaned ≠ b.text_cleaned)
      (filter_messages rows)
  ∧ ∀ r ∈ filter_messages rows,
      (rows.find? fun s => s.text_cleaned == r.text_cleaned) = some r := by
  constructor
  · exact dropDupFirst_pairwise _ _
  · intro r hr
    simp only [filter_messages] at hr
    have hfind := (dropDupFirst_spec _ _ _ hr).2
    have hmem3 := dropDupFirst_mem _ _ _ hr
    have h3 := (List.mem_filter.mp hmem3).2
    have hmem2 := (List.mem_filter.mp hmem3).1
    have h2 := (List.mem_filter.mp hmem2).2
    have hmem1 := (List.mem_filter.mp hmem2).1
    have h1 := (List.mem_filter.mp hmem1).2
    have step1 := filter_head_lift (fun t => has_inclusion t) r h3 _ hfind
    have step2 := filter_head_lift (fun t => !has_exclusion t) r h2 _ step1
    exact filter_head_lift (fun t => decide (20 < t.length)) r h1 _ step2

/-- C6 witness: two rows with the same cleaned text and different ids — the
survivor is the first input occurrence. -/
theorem filter_messages_dedup_witness :
    (demoRows.find? fun s => s.text_cleaned == warText) = some ⟨1, warText⟩ :=
  (filter_messages_dedup demoRows).2 ⟨1, warText⟩ (by decide)

theorem insDesc_perm (x : String × Nat) :
    ∀ l : List (String × Nat), List.Perm (insDesc x l) (x :: l) := by
  intro l
  induction l with
  | nil => exact List.Perm.refl _
  | cons y ys ih =>
    rw [insDesc]
    by_cases h : y.2 ≤ x.2
    · rw [if_pos h]
    · rw [if_neg h]
      exact (ih.cons y).trans (List.Perm.swap x y ys)

theorem sortByCountDesc_perm :
    ∀ l : List (String × Nat), List.Perm (sortByCountDesc l) l := by
  intro l
  induction l with
  | nil => exact List.Perm.refl _
  | cons x xs ih => exact (insDesc_perm x (sortByCountDesc xs)).trans (ih.cons x)

theorem dedupKeepFirst_subset {α : Type} [DecidableEq α] :
    ∀ (l seen : List α) (x : α), x ∈ dedupKeepFirst l seen → x ∈ l := by
  intro l
  induction l with
  | nil => intro seen x h; simp [dedupKeepFirst] at h
  | cons y ys ih =>
    intro seen x h
    by_cases hy : y ∈ seen
    · rw [dedupKeepFirst, if_pos hy] at h
      exact List.mem_cons_of_mem _ (ih seen x h)
    · rw [dedupKeepFirst, if_neg hy] at h
      rcases List.mem_cons.mp h with rfl | h2
      · exact List.mem_cons_self _ _
      · exact List.mem_cons_of_mem _ (ih _ x h2)

theorem windowsAux_length {α : Type} (n : Nat) :
    ∀ (l : List α) (g : List α), g ∈ windowsAux n l → g.length = n := by
  intro l
  induction l with
  | nil => intro g h; simp [windowsAux] at h
  | cons c cs ih =>
    intro g h
    rw [windowsAux] at h
    by_cases hl : (c :: cs).length < n
    · rw [if_pos hl] at h
      simp at h
    · rw [if_neg hl] at h
      rcases List.mem_cons.mp h with rfl | h2
      · rw [List.length_take]
        omega
      · exact ih g h2

theorem windowsAux_subset {α : Type} (n : Nat) :
    ∀ (l : List α) (g : List α), g ∈ windowsAux n l → ∀ x ∈ g, x ∈ l := by
  intro l
  induction l with
  | nil => intro g h; simp [windowsAux] at h
  | cons c cs ih =>
    intro g h x hx
    rw [windowsAux] at h
    by_cases hl : (c :: cs).length < n
    · rw [if_pos hl] at h
      simp at h
    · rw [if_neg hl] at h
      rcases List.mem_cons.mp h with rfl | h2
      · exact List.take_subset _ _ hx
      · exact List.mem_cons_of_mem _ (ih g h2 x hx)

theorem allNgrams_facts {n : Nat} {ls : List (List String)} {g : List String}
    (h : g ∈ allNgrams n ls) :
    g.length = n ∧ 1 ≤ n ∧ ∃ l ∈ ls, ∀ x ∈ g, x ∈ l := by
  unfold allNgrams at h
  rw [List.mem_flatMap] at h
  obtain ⟨l, hl, hg⟩ := h
  by_cases hn : n ≤ l.length
  · rw [if_pos hn] at hg
    unfold windowsN at hg
    by_cases h0 : n = 0
    · rw [if_pos h0] at hg
      simp at hg
    · rw [if_neg h0] at hg
      exact ⟨windowsAux_length n l g hg, by omega,
        l, hl, windowsAux_subset n l g hg⟩
  · rw [if_neg hn] at hg
    simp at hg

theorem splitSp_no_space : ∀ w : List Char, ' ' ∉ w → splitSp w = [w] := by
  intro w
  induction w with
  | nil => intro _; rfl
  | cons c cs ih =>
    intro h
    have hc : c ≠ ' ' := fun he => h (he ▸ List.mem_cons_self _ _)
    have hcs : ' ' ∉ cs := fun hm => h (List.mem_cons_of_mem _ hm)
    rw [splitSp]
    · rw [ih hcs]
    · exact hc

theorem splitSp_append :
    ∀ (w t : List Char), ' ' ∉ w → splitSp (w ++ ' ' :: t) = w :: splitSp t := by
  intro w
  induction w with
  | nil =>
    intro t _
    rw [List.nil_append, splitSp]
  | cons c cs ih =>
    intro t h
    have hc : c ≠ ' ' := fun he => h (he ▸ List.mem_cons_self _ _)
    have hcs : ' ' ∉ cs := fun hm => h (List.mem_cons_of_mem _ hm)
    rw [List.cons_append, splitSp]
    · rw [ih t hcs]
    · exact hc

theorem splitSp_joinSp :
    ∀ wl : List (List Char), wl ≠ [] → (∀ w ∈ wl, ' ' ∉ w) →
      splitSp (joinSp wl) = wl := by
  intro wl
  induction wl with
  | nil => intro h _; exact absurd rfl h
  | cons w rest ih =>
    intro _ hws
    cases rest with
    | nil =>
      rw [joinSp]
      exact splitSp_no_space w (hws w (List.mem_cons_self _ _))
    | cons w2 rest2 =>
      rw [joinSp, splitSp_append w _ (hws w (List.mem_cons_self _ _))]
      · rw [ih (List.cons_ne_nil _ _) fun v hv => hws v (List.mem_cons_of_mem _ hv)]
      · exact fun h => List.noConfusion h

theorem stringMk_data (s : String) : String.mk s.data = s := rfl

theorem splitSpace_joinSpace (ws : List String) (hne : ws ≠ [])
    (h : ∀ w ∈ ws, ' ' ∉ w.data) : splitSpace (joinSpace ws) = ws := by
  unfold splitSpace joinSpace
  rw [splitSp_joinSp (ws.map String.data)
    (by simpa using hne)
    (by intro w hw
        obtain ⟨v, hv, rfl⟩ := List.mem_map.mp hw
        exact h v hv)]
  rw [List.map_map]
  have hid : List.map ((fun w => (⟨w⟩ : String)) ∘ String.data) ws =
      List.map id ws :=
    List.map_congr_left fun v _ => rfl
  rw [hid, List.map_id]

/-- C8: `compute_ngrams` never returns an entry whose count is below
`min_freq`; and — provided the input tokens contain no spaces, as lemmas
produced by the pipeline do — every returned key is the space-join of one of
the generated n-token windows, and splitting the key on spaces recovers that
window exactly. -/
theorem compute_ngrams_spec (ls : List (List String)) (n min_freq : Nat) :
    (∀ p ∈ compute_ngrams ls n min_freq, min_freq ≤ p.2)
  ∧ ((∀ l ∈ ls, ∀ w ∈ l, ' ' ∉ w.data) →
      ∀ p ∈ compute_ngrams ls n min_freq,
        ∃ g, g ∈ allNgrams n ls ∧ p.1 = joinSpace g ∧ splitSpace p.1 = g) := by
  have hunpack : ∀ p ∈ compute_ngrams ls n min_freq,
      ∃ g, g ∈ allNgrams n ls ∧ p = (joinSpace g, (allNgrams n ls).count g) ∧
        min_freq ≤ (allNgrams n ls).count g := by
    intro p hp
    simp only [compute_ngrams] at hp
    rw [(sortByCountDesc_perm _).mem_iff] at hp
    obtain ⟨q, hq, rfl⟩ := List.mem_map.mp hp
    obtain ⟨hqi, hqf⟩ := List.mem_filter.mp hq
    obtain ⟨g, hgd, rfl⟩ := List.mem_map.mp hqi
    refine ⟨g, dedupKeepFirst_subset _ _ _ hgd, rfl, by simpa using hqf⟩
  constructor
  · intro p hp
    obtain ⟨g, -, hpe, hge⟩ := hunpack p hp
    rw [hpe]
    exact hge
  · intro htok p hp
    obtain ⟨g, hg, hpe, -⟩ := hunpack p hp
    obtain ⟨hlen, h1, l, hl, hsub⟩ := allNgrams_facts hg
    have hgne : g ≠ [] := by
      intro he
      rw [he] at hlen
      simp at hlen
      omega
    have hgs : ∀ w ∈ g, ' ' ∉ w.data := fun w hw => htok l hl w (hsub w hw)
    refine ⟨g, hg, by rw [hpe], ?_⟩
    rw [hpe]
    exact splitSpace_joinSpace g hgne hgs

/-- C8 witness: two identical bigrams over space-free tokens. -/
theorem compute_ngrams_spec_witness :
    (∀ p ∈ compute_ngrams [["x", "y"], ["x", "y"]] 2 2, 2 ≤ p.2)
    ∧ ∃ g, g ∈ allNgrams 2 [["x", "y"], ["x", "y"]] ∧
        ("x y" : String) = joinSpace g ∧ splitSpace "x y" = g :=
  ⟨(compute_ngrams_spec [["x", "y"], ["x", "y"]] 2 2).1,
   (compute_ngrams_spec [["x", "y"], ["x", "y"]] 2 2).2 (by decide)
     ("x y", 2) (by decide)⟩

/-- C8 counterexample: with a token that itself contains a space, the only
generated window is `["a b", "c"]`, the returned key is `"a b c"`, and
splitting that key on spaces yields `["a", "b", "c"]` — not the window it
was built from. -/
theorem compute_ngrams_split_counterexample :
    compute_ngrams [["a b", "c"]] 2 1 = [("a b c", 1)]
    ∧ allNgrams 2 [["a b", "c"]] = [["a b", "c"]]
    ∧ splitSpace "a b c" = ["a", "b", "c"]
    ∧ (["a", "b", "c"] : List String) ≠ ["a b", "c"] := by
  refine ⟨by decide, by decide, by decide, by decide⟩

theorem lemmatize_core_mem (stop : List String)
    (doc : List (List StanzaWord)) (lem : String)
    (h : lem ∈ doc.flatMap fun sentence =>
      (sentence.filter (stanzaKeep stop)).map fun w => pyLower w.lemma_) :
    pyLower lem = lem ∧ lem ∉ stop ∧
    ∃ sentence w, sentence ∈ doc ∧ w ∈ sentence ∧ lem = pyLower w.lemma_ ∧
      pyIsAlpha w.text = true ∧ 2 < w.text.length := by
  rw [List.mem_flatMap] at h
  obtain ⟨sentence, hs, hmem⟩ := h
  obtain ⟨w, hw, rfl⟩ := List.mem_map.mp hmem
  have hk := (List.mem_filter.mp hw).2
  have hwmem := (List.mem_filter.mp hw).1
  unfold stanzaKeep at hk
  simp only [Bool.and_eq_true] at hk
  obtain ⟨⟨⟨⟨hlem, hstop⟩, hpos⟩, halpha⟩, hlen⟩ := hk
  refine ⟨pyLower_idem _, ?_, sentence, w, hs, hwmem, rfl, halpha,
    of_decide_eq_true hlen⟩
  simp at hstop
  exact hstop

/-- C1 (amended): for missing or blank input both lemmatizers return `[]`;
every returned lemma is lowercase (a fixed point of lowercasing) and absent
from that language's stop-word list, and is the lowercased lemma of some
pipeline token whose *surface text* is purely alphabetic and longer than 2
characters — the alphabetic and length filters apply to the token's surface
text, not to the returned lemma. -/
theorem lemmatize_spec (nlp : String → List (List StanzaWord)) :
    lemmatize_russian nlp none = []
  ∧ lemmatize_greek nlp none = []
  ∧ (∀ s : String, pyBlank s = true →
      lemmatize_russian nlp (some s) = [] ∧ lemmatize_greek nlp (some s) = [])
  ∧ (∀ (s lem : String), lem ∈ lemmatize_russian nlp (some s) →
      pyLower lem = lem ∧ lem ∉ RU_STOPWORDS ∧
      ∃ sentence w, sentence ∈ nlp s ∧ w ∈ sentence ∧ lem = pyLower w.lemma_ ∧
        pyIsAlpha w.text = true ∧ 2 < w.text.length)
  ∧ (∀ (s lem : String), lem ∈ lemmatize_greek nlp (some s) →
      pyLower lem = lem ∧ lem ∉ EL_STOPWORDS ∧
      ∃ sentence w, sentence ∈ nlp s ∧ w ∈ sentence ∧ lem = pyLower w.lemma_ ∧
        pyIsAlpha w.text = true ∧ 2 < w.text.length) := by
  refine ⟨rfl, rfl,
    fun s hs => ⟨by simp [lemmatize_russian, hs], by simp [lemmatize_greek, hs]⟩,
    fun s lem h => ?_, fun s lem h => ?_⟩
  · have hred : lemmatize_russian nlp (some s) =
        if pyBlank s then []
        else (nlp s).flatMap fun sentence =>
          (sentence.filter (stanzaKeep RU_STOPWORDS)).map fun w =>
            pyLower w.lemma_ := rfl
    rw [hred] at h
    by_cases hs : pyBlank s = true
    · rw [if_pos hs] at h
      simp at h
    · rw [if_neg hs] at h
      exact lemmatize_core_mem RU_STOPWORDS (nlp s) lem h
  · have hred : lemmatize_greek nlp (some s) =
        if pyBlank s then []
        else (nlp s).flatMap fun sentence =>
          (sentence.filter (stanzaKeep EL_STOPWORDS)).map fun w =>
            pyLower w.lemma_ := rfl
    rw [hred] at h
    by_cases hs : pyBlank s = true
    · rw [if_pos hs] at h
      simp at h
    · rw [if_neg hs] at h
      exact lemmatize_core_mem EL_STOPWORDS (nlp s) lem h

/-- C1 witness: a concrete pipeline and text; the returned lemma `"война"`
satisfies all the amended conditions. -/
theorem lemmatize_spec_witness :
    pyLower "война" = "война" ∧ ("война" : String) ∉ RU_STOPWORDS ∧
    ∃ sentence w, sentence ∈ demoNlp "война" ∧ w ∈ sentence ∧
      ("война" : String) = pyLower w.lemma_ ∧ pyIsAlpha w.text = true ∧
      2 < w.text.length :=
  (lemmatize_spec demoNlp).2.2.2.1 "война" "война" (by decide)

/-- C1 counterexample: a conforming pipeline (tokens expose surface text,
lemma, POS) can lemmatize the alphabetic length-3 token `"три"` to `"3"`; the
function then returns the lemma `"3"`, which is neither purely alphabetic
nor longer than 2 characters. -/
theorem lemmatize_alpha_counterexample :
    lemmatize_russian badNlp (some "три") = ["3"]
    ∧ pyIsAlpha "3" = false
    ∧ ¬ 2 < ("3" : String).length := by
  refine ⟨by decide, by decide, by decide⟩

theorem patAt_nil_true {ps : List (Char → Bool)} (h : patAt ps [] = true) :
    ∀ l, patAt ps l = true := by
  intro l
  cases ps with
  | nil => rfl
  | cons p ps => exact absurd h (by simp [patAt])

theorem hasPat_of_patAt {ps : List (Char → Bool)} {l : List Char}
    (h : patAt ps l = true) : hasPat ps l = true := by
  cases l with
  | nil => exact h
  | cons c cs =>
    rw [hasPat, h]
    rfl

theorem hasPat_tail {ps : List (Char → Bool)} {c : Char} {cs : List Char}
    (h : hasPat ps cs = true) : hasPat ps (c :: cs) = true := by
  rw [hasPat, h, Bool.or_true]

theorem hasPat_cons_false {ps : List (Char → Bool)} {c : Char} {cs : List Char}
    (h : hasPat ps (c :: cs) = false) :
    patAt ps (c :: cs) = false ∧ hasPat ps cs = false := by
  rw [hasPat] at h
  exact ⟨(Bool.or_eq_false_iff.mp h).1, (Bool.or_eq_false_iff.mp h).2⟩

theorem patAt_append {ps : List (Char → Bool)} :
    ∀ (t b : List Char), patAt ps t = true → patAt ps (t ++ b) = true := by
  induction ps with
  | nil => intro t b _; rfl
  | cons p ps ih =>
    intro t b h
    cases t with
    | nil => exact absurd h (by simp [patAt])
    | cons x xs =>
      rw [patAt, Bool.and_eq_true] at h
      rw [List.cons_append, patAt, h.1, ih xs b h.2]
      rfl

theorem hasPat_append_right {ps : List (Char → Bool)} {b : List Char} :
    ∀ l, hasPat ps l = true → hasPat ps (l ++ b) = true := by
  intro l
  induction l with
  | nil =>
    intro h
    exact hasPat_of_patAt (patAt_nil_true h b)
  | cons x xs ih =>
    intro h
    rw [hasPat, Bool.or_eq_true] at h
    rcases h with h | h
    · exact hasPat_of_patAt (patAt_append _ _ h)
    · exact hasPat_tail (ih h)

theorem hasPat_prepend {ps : List (Char → Bool)} :
    ∀ (a l : List Char), hasPat ps l = true → hasPat ps (a ++ l) = true := by
  intro a
  induction a with
  | nil => intro l h; exact h
  | cons x xs ih => intro l h; exact hasPat_tail (ih l h)

theorem hasPat_sub_mono {ps : List (Char → Bool)} {l₂ l : List Char}
    (hsub : l₂ <:+: l) (h : hasPat ps l₂ = true) : hasPat ps l = true := by
  obtain ⟨a, b, hab⟩ := hsub
  rw [← hab]
  rw [List.append_assoc]
  exact hasPat_prepend a _ (hasPat_append_right _ h)

theorem httpPat_nonWs : PatNonWs httpPat := by
  intro p hp c hpc
  simp only [httpPat, List.mem_cons, List.mem_singleton] at hp
  rcases hp with rfl | rfl | rfl | rfl | rfl | h
  · rw [of_decide_eq_true hpc]; rfl
  · rw [of_decide_eq_true hpc]; rfl
  · rw [of_decide_eq_true hpc]; rfl
  · rw [of_decide_eq_true hpc]; rfl
  · simpa [nonWs] using hpc
  · simp at h

theorem wwwPat_nonWs : PatNonWs wwwPat := by
  intro p hp c hpc
  simp only [wwwPat, List.mem_cons, List.mem_singleton] at hp
  rcases hp with rfl | rfl | rfl | rfl | rfl | h
  · rw [of_decide_eq_true hpc]; rfl
  · rw [of_decide_eq_true hpc]; rfl
  · rw [of_decide_eq_true hpc]; rfl
  · rw [of_decide_eq_true hpc]; rfl
  · simpa [nonWs] using hpc
  · simp at h

theorem starPat_nonWs : PatNonWs starPat := by
  intro p hp c hpc
  simp only [starPat, List.mem_cons, List.mem_singleton] at hp
  rcases hp with rfl | rfl | h
  · rw [of_decide_eq_true hpc]; rfl
  · rw [of_decide_eq_true hpc]; rfl
  · simp at h

theorem underPat_nonWs : PatNonWs underPat := by
  intro p hp c hpc
  simp only [underPat, List.mem_cons, List.mem_singleton] at hp
  rcases hp with rfl | rfl | h
  · rw [of_decide_eq_true hpc]; rfl
  · rw [of_decide_eq_true hpc]; rfl
  · simp at h

theorem tildePat_nonWs : PatNonWs tildePat := by
  intro p hp c hpc
  simp only [tildePat, List.mem_cons, List.mem_singleton] at hp
  rcases hp with rfl | rfl | h
  · rw [of_decide_eq_true hpc]; rfl
  · rw [of_decide_eq_true hpc]; rfl
  · simp at h

theorem tickPat_nonWs : PatNonWs tickPat := by
  intro p hp c hpc
  simp only [tickPat, List.mem_cons, List.mem_singleton] at hp
  rcases hp with rfl | h
  · rw [of_decide_eq_true hpc]; rfl
  · simp at h

theorem patAt_of_wsRel :
    ∀ (ps : List (Char → Bool)), PatNonWs ps →
      ∀ l m, WsRel l m → patAt ps m = true → patAt ps l = true := by
  intro ps
  induction ps with
  | nil => intro _ l m _ _; rfl
  | cons p ps ih =>
    intro hps l m hrel hpat
    cases m with
    | nil => exact absurd hpat (by simp [patAt])
    | cons x m2 =>
      rw [patAt, Bool.and_eq_true] at hpat
      have hxnw : x.isWhitespace = false := hps p (List.mem_cons_self _ _) x hpat.1
      cases hrel with
      | ws _ _ _ hw => rw [hw] at hxnw; exact Bool.noConfusion hxnw
      | cons _ l2 _ h2 =>
        rw [patAt, Bool.and_eq_true]
        exact ⟨hpat.1,
          ih (fun q hq c hc => hps q (List.mem_cons_of_mem _ hq) c hc) l2 m2 h2 hpat.2⟩

theorem patAt_http_shape {l : List Char} (h : patAt httpPat l = true) :
    ∃ c rest, l = 'h' :: 't' :: 't' :: 'p' :: c :: rest ∧
      c.isWhitespace = false := by
  cases l with
  | nil => simp [httpPat, patAt] at h
  | cons c1 l1 =>
  cases l1 with
  | nil => simp [httpPat, patAt] at h
  | cons c2 l2 =>
  cases l2 with
  | nil => simp [httpPat, patAt] at h
  | cons c3 l3 =>
  cases l3 with
  | nil => simp [httpPat, patAt] at h
  | cons c4 l4 =>
  cases l4 with
  | nil => simp [httpPat, patAt] at h
  | cons c5 l5 =>
    simp only [httpPat, patAt, Bool.and_eq_true, decide_eq_true_eq, nonWs] at h
    obtain ⟨h1, h2, h3, h4, h5, -⟩ := h
    subst h1; subst h2; subst h3; subst h4
    exact ⟨c5, l5, rfl, by simpa using h5⟩

theorem patAt_www_shape {l : List Char} (h : patAt wwwPat l = true) :
    ∃ c rest, l = 'w' :: 'w' :: 'w' :: '.' :: c :: rest ∧
      c.isWhitespace = false := by
  cases l with
  | nil => simp [wwwPat, patAt] at h
  | cons c1 l1 =>
  cases l1 with
  | nil => simp [wwwPat, patAt] at h
  | cons c2 l2 =>
  cases l2 with
  | nil => simp [wwwPat, patAt] at h
  | cons c3 l3 =>
  cases l3 with
  | nil => simp [wwwPat, patAt] at h
  | cons c4 l4 =>
  cases l4 with
  | nil => simp [wwwPat, patAt] at h
  | cons c5 l5 =>
    simp only [wwwPat, patAt, Bool.and_eq_true, decide_eq_true_eq, nonWs] at h
    obtain ⟨h1, h2, h3, h4, h5, -⟩ := h
    subst h1; subst h2; subst h3; subst h4
    exact ⟨c5, l5, rfl, by simpa using h5⟩

theorem matchUrl_some_patAt {l r : List Char} (h : matchUrl l = some r) :
    patAt httpPat l = true ∨ patAt wwwPat l = true := by
  unfold matchUrl at h
  split at h
  · split at h
    · exact absurd h (by simp)
    · rename_i c rest hcw
      left
      simp [httpPat, patAt, nonWs, hcw]
  · split at h
    · exact absurd h (by simp)
    · rename_i c rest hcw
      right
      simp [wwwPat, patAt, nonWs, hcw]
  · exact absurd h (by simp)

theorem matchUrl_isSome_of_patAt {l : List Char}
    (h : patAt httpPat l = true ∨ patAt wwwPat l = true) :
    matchUrl l ≠ none := by
  rcases h with h | h
  · obtain ⟨c, rest, rfl, hcw⟩ := patAt_http_shape h
    simp [matchUrl, hcw]
  · obtain ⟨c, rest, rfl, hcw⟩ := patAt_www_shape h
    simp [matchUrl, hcw]

theorem matchUrl_none_of_noUrl {c : Char} {cs : List Char}
    (h : hasUrl (c :: cs) = false) : matchUrl (c :: cs) = none := by
  unfold hasUrl at h
  obtain ⟨hh, hw⟩ := Bool.or_eq_false_iff.mp h
  have hh2 := (hasPat_cons_false hh).1
  have hw2 := (hasPat_cons_false hw).1
  cases hm : matchUrl (c :: cs) with
  | none => rfl
  | some r =>
    rcases matchUrl_some_patAt hm with hp | hp
    · rw [hh2] at hp; exact Bool.noConfusion hp
    · rw [hw2] at hp; exact Bool.noConfusion hp

theorem dropWhile_head_shape {α : Type} (p : α → Bool) (l : List α) :
    l.dropWhile p = [] ∨
      ∃ x xs, l.dropWhile p = x :: xs ∧ p x = false := by
  induction l with
  | nil => left; rfl
  | cons c cs ih =>
    by_cases hc : p c = true
    · rw [List.dropWhile_cons_of_pos hc]
      exact ih
    · right
      refine ⟨c, cs, List.dropWhile_cons_of_neg hc, ?_⟩
      cases h : p c
      · rfl
      · exact absurd h hc

theorem matchUrl_some_head {l rest : List Char} (h : matchUrl l = some rest) :
    rest = [] ∨ ∃ w r, rest = w :: r ∧ w.isWhitespace = true := by
  unfold matchUrl at h
  split at h
  · split at h
    · exact absurd h (by simp)
    · rename_i c r2 _
      simp only [Option.some_inj] at h
      subst h
      rcases dropWhile_head_shape (fun d => !d.isWhitespace) (c :: r2) with h2 | ⟨x, xs, h2, hx⟩
      · left; exact h2
      · right
        exact ⟨x, xs, h2, by simpa using hx⟩
  · split at h
    · exact absurd h (by simp)
    · rename_i c r2 _
      simp only [Option.some_inj] at h
      subst h
      rcases dropWhile_head_shape (fun d => !d.isWhitespace) (c :: r2) with h2 | ⟨x, xs, h2, hx⟩
      · left; exact h2
      · right
        exact ⟨x, xs, h2, by simpa using hx⟩
  · exact absurd h (by simp)

theorem matchUrl_some_suffix {l rest : List Char} (h : matchUrl l = some rest) :
    rest <:+ l := by
  unfold matchUrl at h
  split at h
  · split at h
    · exact absurd h (by simp)
    · rename_i c r2 _
      simp only [Option.some_inj] at h
      subst h
      exact (List.dropWhile_suffix _).trans
        ((List.suffix_cons _ _).trans ((List.suffix_cons _ _).trans
          ((List.suffix_cons _ _).trans (List.suffix_cons _ _))))
  · split at h
    · exact absurd h (by simp)
    · rename_i c r2 _
      simp only [Option.some_inj] at h
      subst h
      exact (List.dropWhile_suffix _).trans
        ((List.suffix_cons _ _).trans ((List.suffix_cons _ _).trans
          ((List.suffix_cons _ _).trans (List.suffix_cons _ _))))
  · exact absurd h (by simp)

theorem matchUrl_ws_head {w : Char} {r : List Char}
    (hw : w.isWhitespace = true) : matchUrl (w :: r) = none := by
  cases hm : matchUrl (w :: r) with
  | none => rfl
  | some x =>
    rcases matchUrl_some_patAt hm with hp | hp
    · obtain ⟨c, rest, he, -⟩ := patAt_http_shape hp
      rw [List.cons.injEq] at he
      rw [he.1] at hw
      exact Bool.noConfusion hw
    · obtain ⟨c, rest, he, -⟩ := patAt_www_shape hp
      rw [List.cons.injEq] at he
      rw [he.1] at hw
      exact Bool.noConfusion hw

theorem urlSubF_nil (fuel : Nat) : urlSubF fuel [] = [] := by
  cases fuel <;> rfl

theorem wsRel_urlSubF_wsHead (l : List Char) :
    ∀ (fuel : Nat) (rest : List Char),
      (rest = [] ∨ ∃ w r, rest = w :: r ∧ w.isWhitespace = true) →
      WsRel l (urlSubF fuel rest) := by
  intro fuel rest h
  rcases h with rfl | ⟨w, r, rfl, hw⟩
  · rw [urlSubF_nil]
    exact WsRel.nil l
  · cases fuel with
    | zero => exact WsRel.ws l w r hw
    | succ f =>
      rw [show urlSubF (f + 1) (w :: r) = w :: urlSubF f r from by
        rw [urlSubF, matchUrl_ws_head hw]]
      exact WsRel.ws l w _ hw

theorem urlSubF_spec :
    ∀ (fuel : Nat) (l : List Char), l.length ≤ fuel →
      hasUrl (urlSubF fuel l) = false ∧ WsRel l (urlSubF fuel l) := by
  intro fuel
  induction fuel with
  | zero =>
    intro l hl
    have h0 : l = [] := List.eq_nil_of_length_eq_zero (Nat.le_zero.mp hl)
    subst h0
    exact ⟨rfl, WsRel.nil []⟩
  | succ fuel ih =>
    intro l hl
    cases l with
    | nil => exact ⟨rfl, WsRel.nil []⟩
    | cons c cs =>
      cases hm : matchUrl (c :: cs) with
      | some rest =>
        have hstep : urlSubF (fuel + 1) (c :: cs) = urlSubF fuel rest := by
          rw [urlSubF, hm]
        have hlen : rest.length ≤ fuel := by
          have := matchUrl_some_length hm
          simp only [List.length_cons] at this hl
          omega
        obtain ⟨h1, -⟩ := ih rest hlen
        rw [hstep]
        exact ⟨h1, wsRel_urlSubF_wsHead _ fuel rest (matchUrl_some_head hm)⟩
      | none =>
        have hstep : urlSubF (fuel + 1) (c :: cs) = c :: urlSubF fuel cs := by
          rw [urlSubF, hm]
        have hlen : cs.length ≤ fuel := by
          simp only [List.length_cons] at hl
          omega
        obtain ⟨h1, h2⟩ := ih cs hlen
        rw [hstep]
        have hrel : WsRel (c :: cs) (c :: urlSubF fuel cs) := WsRel.cons c _ _ h2
        refine ⟨?_, hrel⟩
        obtain ⟨hhu, hwu⟩ := Bool.or_eq_false_iff.mp h1
        have hm2 : matchUrl (c :: urlSubF fuel cs) = none := by
          cases hm2 : matchUrl (c :: urlSubF fuel cs) with
          | none => rfl
          | some r =>
            exfalso
            rcases matchUrl_some_patAt hm2 with hp | hp
            · exact matchUrl_isSome_of_patAt
                (Or.inl (patAt_of_wsRel httpPat httpPat_nonWs _ _ hrel hp)) hm
            · exact matchUrl_isSome_of_patAt
                (Or.inr (patAt_of_wsRel wwwPat wwwPat_nonWs _ _ hrel hp)) hm
        have hph : patAt httpPat (c :: urlSubF fuel cs) = false := by
          cases hpa : patAt httpPat (c :: urlSubF fuel cs) with
          | false => rfl
          | true => exact absurd hm2 (matchUrl_isSome_of_patAt (Or.inl hpa))
        have hpw : patAt wwwPat (c :: urlSubF fuel cs) = false := by
          cases hpa : patAt wwwPat (c :: urlSubF fuel cs) with
          | false => rfl
          | true => exact absurd hm2 (matchUrl_isSome_of_patAt (Or.inr hpa))
        unfold hasUrl
        rw [hasPat, hasPat, hph, hpw, hhu, hwu]
        rfl

theorem urlSub_noUrl (l : List Char) : hasUrl (urlSub l) = false :=
  (urlSubF_spec l.length l le_rfl).1

theorem urlSubF_id_of_noUrl :
    ∀ (fuel : Nat) (l : List Char), hasUrl l = false → urlSubF fuel l = l := by
  intro fuel
  induction fuel with
  | zero => intro l _; rfl
  | succ fuel ih =>
    intro l h
    cases l with
    | nil => rfl
    | cons c cs =>
      have hm : matchUrl (c :: cs) = none := matchUrl_none_of_noUrl h
      rw [urlSubF, hm]
      obtain ⟨hh, hw⟩ := Bool.or_eq_false_iff.mp h
      have hcs : hasUrl cs = false := by
        unfold hasUrl
        rw [(hasPat_cons_false hh).2, (hasPat_cons_false hw).2]
        rfl
      rw [ih cs hcs]

theorem hasPat_urlSubF (ps : List (Char → Bool)) (hps : PatNonWs ps) :
    ∀ (fuel : Nat) (l : List Char), l.length ≤ fuel →
      hasPat ps (urlSubF fuel l) = true → hasPat ps l = true := by
  intro fuel
  induction fuel with
  | zero =>
    intro l hl h
    have h0 : l = [] := List.eq_nil_of_length_eq_zero (Nat.le_zero.mp hl)
    subst h0
    exact h
  | succ fuel ih =>
    intro l hl h
    cases l with
    | nil => exact h
    | cons c cs =>
      cases hm : matchUrl (c :: cs) with
      | some rest =>
        rw [show urlSubF (fuel + 1) (c :: cs) = urlSubF fuel rest from by
          rw [urlSubF, hm]] at h
        have hlen : rest.length ≤ fuel := by
          have := matchUrl_some_length hm
          simp only [List.length_cons] at this hl
          omega
        exact hasPat_sub_mono (matchUrl_some_suffix hm).isInfix
          (ih rest hlen h)
      | none =>
        rw [show urlSubF (fuel + 1) (c :: cs) = c :: urlSubF fuel cs from by
          rw [urlSubF, hm]] at h
        have hlen : cs.length ≤ fuel := by
          simp only [List.length_cons] at hl
          omega
        rw [hasPat, Bool.or_eq_true] at h
        rcases h with h | h
        · have hrel : WsRel (c :: cs) (c :: urlSubF fuel cs) :=
            WsRel.cons c _ _ (urlSubF_spec fuel cs hlen).2
          exact hasPat_of_patAt (patAt_of_wsRel ps hps _ _ hrel h)
        · exact hasPat_tail (ih cs hlen h)

theorem hasMd_false_parts {l : List Char} (h : hasMd l = false) :
    hasPat starPat l = false ∧ hasPat underPat l = false ∧
    hasPat tildePat l = false ∧ hasPat tickPat l = false := by
  unfold hasMd at h
  have h4 := (Bool.or_eq_false_iff.mp h).2
  have h123 := (Bool.or_eq_false_iff.mp h).1
  have h3 := (Bool.or_eq_false_iff.mp h123).2
  have h12 := (Bool.or_eq_false_iff.mp h123).1
  exact ⟨(Bool.or_eq_false_iff.mp h12).1, (Bool.or_eq_false_iff.mp h12).2,
    h3, h4⟩

theorem mdSub_id_of_noMd : ∀ l, hasMd l = false → mdSub l = l := by
  intro l
  induction l using mdSub.induct with
  | case1 => intro _; rfl
  | case2 => intro h
             exfalso
             have hp : hasPat tickPat [backquote] = true :=
               hasPat_of_patAt (by simp [tickPat, patAt])
             rw [(hasMd_false_parts h).2.2.2] at hp
             exact Bool.noConfusion hp
  | case3 c hc =>
    intro _
    rw [mdSub, if_neg hc]
  | case4 c d rest hcd ih =>
    intro h
    exfalso
    obtain ⟨rfl, rfl⟩ := hcd
    have hp : hasPat starPat ('*' :: '*' :: rest) = true :=
      hasPat_of_patAt (by simp [starPat, patAt])
    rw [(hasMd_false_parts h).1] at hp
    exact Bool.noConfusion hp
  | case5 c d rest h1 hcd ih =>
    intro h
    exfalso
    obtain ⟨rfl, rfl⟩ := hcd
    have hp : hasPat underPat ('_' :: '_' :: rest) = true :=
      hasPat_of_patAt (by simp [underPat, patAt])
    rw [(hasMd_false_parts h).2.1] at hp
    exact Bool.noConfusion hp
  | case6 c d rest h1 h2 hcd ih =>
    intro h
    exfalso
    obtain ⟨rfl, rfl⟩ := hcd
    have hp : hasPat tildePat ('~' :: '~' :: rest) = true :=
      hasPat_of_patAt (by simp [tildePat, patAt])
    rw [(hasMd_false_parts h).2.2.1] at hp
    exact Bool.noConfusion hp
  | case7 d rest h1 h2 h3 ih =>
    intro h
    exfalso
    have hp : hasPat tickPat (backquote :: d :: rest) = true :=
      hasPat_of_patAt (by simp [tickPat, patAt])
    rw [(hasMd_false_parts h).2.2.2] at hp
    exact Bool.noConfusion hp
  | case8 c d rest h1 h2 h3 hc ih =>
    intro h
    obtain ⟨hs, hu, ht, hk⟩ := hasMd_false_parts h
    have hrest : hasMd (d :: rest) = false := by
      unfold hasMd
      rw [(hasPat_cons_false hs).2, (hasPat_cons_false hu).2,
        (hasPat_cons_false ht).2, (hasPat_cons_false hk).2]
      rfl
    rw [mdSub, if_neg h1, if_neg h2, if_neg h3, if_neg hc, ih hrest]

/-- Reflection of the pattern predicates through the allow-list map: if a
predicate accepting only non-space characters holds of the image, it held of
the original character (the map either fixes a character or sends it to a
space). -/
def PatAllowRefl (ps : List (Char → Bool)) : Prop :=
  ∀ p ∈ ps, ∀ c : Char,
    p (if allowedChar c then c else ' ') = true → p c = true

theorem eqPat_allow_refl {x : Char} (hx : (x = ' ') → False) (c : Char)
    (h : decide ((if allowedChar c then c else ' ') = x) = true) :
    decide (c = x) = true := by
  by_cases ha : allowedChar c = true
  · rw [if_pos ha] at h
    exact h
  · rw [if_neg ha] at h
    exact absurd (of_decide_eq_true h).symm hx

theorem nonWs_allow_refl (c : Char)
    (h : nonWs (if allowedChar c then c else ' ') = true) : nonWs c = true := by
  by_cases ha : allowedChar c = true
  · rw [if_pos ha] at h
    exact h
  · rw [if_neg ha] at h
    simp [nonWs] at h

theorem httpPat_allow_refl : PatAllowRefl httpPat := by
  intro p hp c h
  simp only [httpPat, List.mem_cons, List.mem_singleton] at hp
  rcases hp with rfl | rfl | rfl | rfl | rfl | hfalse
  · exact eqPat_allow_refl (by decide) c h
  · exact eqPat_allow_refl (by decide) c h
  · exact eqPat_allow_refl (by decide) c h
  · exact eqPat_allow_refl (by decide) c h
  · exact nonWs_allow_refl c h
  · simp at hfalse

theorem wwwPat_allow_refl : PatAllowRefl wwwPat := by
  intro p hp c h
  simp only [wwwPat, List.mem_cons, List.mem_singleton] at hp
  rcases hp with rfl | rfl | rfl | rfl | rfl | hfalse
  · exact eqPat_allow_refl (by decide) c h
  · exact eqPat_allow_refl (by decide) c h
  · exact eqPat_allow_refl (by decide) c h
  · exact eqPat_allow_refl (by decide) c h
  · exact nonWs_allow_refl c h
  · simp at hfalse

theorem starPat_allow_refl : PatAllowRefl starPat := by
  intro p hp c h
  simp only [starPat, List.mem_cons, List.mem_singleton] at hp
  rcases hp with rfl | rfl | hfalse
  · exact eqPat_allow_refl (by decide) c h
  · exact eqPat_allow_refl (by decide) c h
  · simp at hfalse

theorem underPat_allow_refl : PatAllowRefl underPat := by
  intro p hp c h
  simp only [underPat, List.mem_cons, List.mem_singleton] at hp
  rcases hp with rfl | rfl | hfalse
  · exact eqPat_allow_refl (by decide) c h
  · exact eqPat_allow_refl (by decide) c h
  · simp at hfalse

theorem tildePat_allow_refl : PatAllowRefl tildePat := by
  intro p hp c h
  simp only [tildePat, List.mem_cons, List.mem_singleton] at hp
  rcases hp with rfl | rfl | hfalse
  · exact eqPat_allow_refl (by decide) c h
  · exact eqPat_allow_refl (by decide) c h
  · simp at hfalse

theorem tickPat_allow_refl : PatAllowRefl tickPat := by
  intro p hp c h
  simp only [tickPat, List.mem_cons, List.mem_singleton] at hp
  rcases hp with rfl | hfalse
  · exact eqPat_allow_refl (by decide) c h
  · simp at hfalse

theorem patAt_allow_pullback (ps : List (Char → Bool)) (hrefl : PatAllowRefl ps) :
    ∀ l, patAt ps (allowSub l) = true → patAt ps l = true := by
  induction ps with
  | nil => intro l _; rfl
  | cons p ps ih =>
    intro l h
    cases l with
    | nil => exact absurd h (by simp [allowSub, patAt])
    | cons c cs =>
      rw [show allowSub (c :: cs) =
          (if allowedChar c then c else ' ') :: allowSub cs from rfl] at h
      rw [patAt, Bool.and_eq_true] at h
      rw [patAt, Bool.and_eq_true]
      exact ⟨hrefl p (List.mem_cons_self _ _) c h.1,
        ih (fun q hq d hd => hrefl q (List.mem_cons_of_mem _ hq) d hd) cs h.2⟩

theorem hasPat_allow_pullback (ps : List (Char → Bool)) (hrefl : PatAllowRefl ps) :
    ∀ l, hasPat ps (allowSub l) = true → hasPat ps l = true := by
  intro l
  induction l with
  | nil => intro h; exact h
  | cons c cs ih =>
    intro h
    rw [show allowSub (c :: cs) =
        (if allowedChar c then c else ' ') :: allowSub cs from rfl] at h
    rw [hasPat, Bool.or_eq_true] at h
    rcases h with h | h
    · have h2 : patAt ps (allowSub (c :: cs)) = true := by
        rw [show allowSub (c :: cs) =
            (if allowedChar c then c else ' ') :: allowSub cs from rfl]
        exact h
      exact hasPat_of_patAt (patAt_allow_pullback ps hrefl _ h2)
    · exact hasPat_tail (ih h)

theorem allowSub_chars (l : List Char) :
    ∀ c ∈ allowSub l, allowedChar c = true := by
  intro c hc
  obtain ⟨x, -, rfl⟩ := List.mem_map.mp hc
  by_cases hx : allowedChar x = true
  · rw [if_pos hx]
    exact hx
  · rw [if_neg hx]
    decide

theorem allowSub_id (l : List Char) (h : ∀ c ∈ l, allowedChar c = true) :
    allowSub l = l := by
  unfold allowSub
  have : ∀ c ∈ l, (if allowedChar c then c else ' ') = id c := by
    intro c hc
    rw [if_pos (h c hc)]
    rfl
  rw [List.map_congr_left this, List.map_id]

theorem wsCollapse_cons_head :
    ∀ (cs : List Char) (c : Char),
      ∃ m, wsCollapse (c :: cs) = (if c.isWhitespace then ' ' else c) :: m := by
  intro cs
  induction cs with
  | nil =>
    intro c
    by_cases hw : c.isWhitespace = true
    · exact ⟨[], by rw [wsCollapse, if_pos hw, if_pos hw]⟩
    · exact ⟨[], by rw [wsCollapse, if_neg hw, if_neg hw]⟩
  | cons d rest ih =>
    intro c
    by_cases hcd : (c.isWhitespace && d.isWhitespace) = true
    · rw [Bool.and_eq_true] at hcd
      obtain ⟨hc, hd⟩ := hcd
      obtain ⟨m, hm⟩ := ih d
      refine ⟨m, ?_⟩
      have hcd2 : (c.isWhitespace && d.isWhitespace) = true := by
        rw [hc, hd]
        rfl
      rw [wsCollapse, if_pos hcd2, hm, if_pos hd, if_pos hc]
    · by_cases hc : c.isWhitespace = true
      · exact ⟨wsCollapse (d :: rest), by rw [wsCollapse, if_neg hcd]⟩
      · exact ⟨wsCollapse (d :: rest), by rw [wsCollapse, if_neg hcd]⟩

theorem wsCollapse_noTwoWs : ∀ l, hasPat wsPat (wsCollapse l) = false := by
  intro l
  induction l using wsCollapse.induct with
  | case1 => rfl
  | case2 c hw =>
    rw [wsCollapse, if_pos hw]
    decide
  | case3 c hw =>
    rw [wsCollapse, if_neg hw]
    have hw2 : c.isWhitespace = false := by
      cases h : c.isWhitespace
      · rfl
      · exact absurd h hw
    simp [hasPat, patAt, wsPat, hw2]
  | case4 c d rest h ih =>
    rw [wsCollapse, if_pos h]
    exact ih
  | case5 c d rest h ih =>
    rw [wsCollapse, if_neg h]
    rw [hasPat, ih, Bool.or_false]
    by_cases hc : c.isWhitespace = true
    · have hd : d.isWhitespace = false := by
        cases hdt : d.isWhitespace
        · rfl
        · exact absurd (by rw [hc, hdt]; rfl) h
      obtain ⟨m, hm⟩ := wsCollapse_cons_head rest d
      rw [hm, hd]
      simp [patAt, wsPat, hd]
    · have hc2 : c.isWhitespace = false := by
        cases hct : c.isWhitespace
        · rfl
        · exact absurd hct hc
      rw [if_neg hc]
      simp [patAt, wsPat, hc2]

theorem wsCollapse_allWsSpace : ∀ l, allWsSpace (wsCollapse l) = true := by
  intro l
  induction l using wsCollapse.induct with
  | case1 => rfl
  | case2 c hw =>
    rw [wsCollapse, if_pos hw]
    decide
  | case3 c hw =>
    rw [wsCollapse, if_neg hw]
    have hw2 : c.isWhitespace = false := by
      cases h : c.isWhitespace
      · rfl
      · exact absurd h hw
    simp [allWsSpace, hw2]
  | case4 c d rest h ih =>
    rw [wsCollapse, if_pos h]
    exact ih
  | case5 c d rest h ih =>
    rw [wsCollapse, if_neg h]
    unfold allWsSpace at ih ⊢
    rw [List.all_cons, ih, Bool.and_true]
    by_cases hc : c.isWhitespace = true
    · rw [if_pos hc]
      decide
    · have hc2 : c.isWhitespace = false := by
        cases hct : c.isWhitespace
        · rfl
        · exact absurd hct hc
      rw [if_neg hc]
      simp [hc2]

theorem wsCollapse_chars : ∀ (l : List Char) (c : Char),
    c ∈ wsCollapse l → c ∈ l ∨ c = ' ' := by
  intro l
  induction l using wsCollapse.induct with
  | case1 => intro c h; simp [wsCollapse] at h
  | case2 x hw =>
    intro c h
    rw [wsCollapse, if_pos hw] at h
    right
    simpa using h
  | case3 x hw =>
    intro c h
    rw [wsCollapse, if_neg hw] at h
    left
    simpa using h
  | case4 x d rest h ih =>
    intro c hc
    rw [wsCollapse, if_pos h] at hc
    rcases ih c hc with h2 | h2
    · exact Or.inl (List.mem_cons_of_mem _ h2)
    · exact Or.inr h2
  | case5 x d rest h ih =>
    intro c hc
    rw [wsCollapse, if_neg h] at hc
    rcases List.mem_cons.mp hc with rfl | h2
    · by_cases hx : x.isWhitespace = true
      · rw [if_pos hx]
        right
        rfl
      · rw [if_neg hx]
        left
        exact List.mem_cons_self _ _
    · rcases ih c h2 with h3 | h3
      · exact Or.inl (List.mem_cons_of_mem _ h3)
      · exact Or.inr h3

theorem wsCollapse_id :
    ∀ l, hasPat wsPat l = false → allWsSpace l = true → wsCollapse l = l := by
  intro l
  induction l using wsCollapse.induct with
  | case1 => intro _ _; rfl
  | case2 c hw =>
    intro _ h2
    unfold allWsSpace at h2
    rw [List.all_cons] at h2
    have hc : c = ' ' := by
      rw [hw] at h2
      simpa using h2
    rw [wsCollapse, if_pos hw, hc]
  | case3 c hw =>
    intro _ _
    rw [wsCollapse, if_neg hw]
  | case4 c d rest h ih =>
    intro h1 _
    exfalso
    rw [Bool.and_eq_true] at h
    obtain ⟨hc, hd⟩ := h
    have hp : patAt wsPat (c :: d :: rest) = true := by
      simp [wsPat, patAt, hc, hd]
    have := hasPat_of_patAt hp
    rw [h1] at this
    exact Bool.noConfusion this
  | case5 c d rest h ih =>
    intro h1 h2
    rw [wsCollapse, if_neg h]
    unfold allWsSpace at h2
    rw [List.all_cons, Bool.and_eq_true] at h2
    have htail := ih (hasPat_cons_false h1).2 h2.2
    rw [htail]
    by_cases hc : c.isWhitespace = true
    · have hcsp : c = ' ' := by
        have := h2.1
        rw [hc] at this
        simpa using this
      rw [if_pos hc, hcsp]
    · rw [if_neg hc]

theorem dropWhile_fix {α : Type} (p : α → Bool) (l : List α) :
    List.dropWhile p (List.dropWhile p l) = List.dropWhile p l := by
  rcases dropWhile_head_shape p l with h | ⟨x, xs, h, hx⟩
  · rw [h]
    rfl
  · rw [h]
    exact List.dropWhile_cons_of_neg (by simp [hx])

theorem wsTrim_pre (l : List Char) :
    wsTrim l <+: l.dropWhile Char.isWhitespace := by
  unfold wsTrim
  rw [← List.reverse_suffix, List.reverse_reverse]
  exact List.dropWhile_suffix _

theorem wsTrim_sub (l : List Char) : wsTrim l <:+: l :=
  (wsTrim_pre l).isInfix.trans (List.dropWhile_suffix _).isInfix

theorem wsTrim_drop_self (l : List Char) :
    (wsTrim l).dropWhile Char.isWhitespace = wsTrim l := by
  cases hBe : wsTrim l with
  | nil => rfl
  | cons b bs =>
    have hpre := wsTrim_pre l
    rw [hBe] at hpre
    obtain ⟨t, ht⟩ := hpre
    rcases dropWhile_head_shape Char.isWhitespace l with h0 | ⟨x, xs, h0, hx⟩
    · rw [h0] at ht
      simp at ht
    · rw [h0] at ht
      rw [List.cons_append] at ht
      have hb : b = x := (List.cons.injEq _ _ _ _).mp ht |>.1
      exact List.dropWhile_cons_of_neg (by simp [hb, hx])

theorem wsTrim_idem (l : List Char) : wsTrim (wsTrim l) = wsTrim l := by
  show (((wsTrim l).dropWhile Char.isWhitespace).reverse.dropWhile
    Char.isWhitespace).reverse = wsTrim l
  rw [wsTrim_drop_self]
  have h2 : (wsTrim l).reverse.dropWhile Char.isWhitespace =
      (wsTrim l).reverse := by
    unfold wsTrim
    rw [List.reverse_reverse]
    exact dropWhile_fix _ _
  rw [h2, List.reverse_reverse]

theorem wsCollapse_cons_inv {x : Char} (hx : x.isWhitespace = false) :
    ∀ {l m : List Char}, wsCollapse l = x :: m →
      ∃ l2, l = x :: l2 ∧ m = wsCollapse l2 := by
  intro l
  induction l using wsCollapse.induct with
  | case1 =>
    intro m h
    exact absurd h (by simp [wsCollapse])
  | case2 c hw =>
    intro m h
    rw [wsCollapse, if_pos hw] at h
    rw [List.cons.injEq] at h
    exfalso
    rw [← h.1] at hx
    exact Bool.noConfusion hx
  | case3 c hw =>
    intro m h
    rw [wsCollapse, if_neg hw] at h
    rw [List.cons.injEq] at h
    refine ⟨[], ?_, ?_⟩
    · rw [h.1]
    · rw [← h.2]
      rfl
  | case4 c d rest h ih =>
    intro m hm
    rw [wsCollapse, if_pos h] at hm
    obtain ⟨l2, hl2, hm2⟩ := ih hm
    exfalso
    rw [Bool.and_eq_true] at h
    rw [List.cons.injEq] at hl2
    rw [hl2.1] at h
    rw [h.2] at hx
    exact Bool.noConfusion hx
  | case5 c d rest h ih =>
    intro m hm
    rw [wsCollapse, if_neg h] at hm
    rw [List.cons.injEq] at hm
    by_cases hc : c.isWhitespace = true
    · exfalso
      rw [if_pos hc] at hm
      rw [← hm.1] at hx
      exact Bool.noConfusion hx
    · rw [if_neg hc] at hm
      exact ⟨d :: rest, by rw [hm.1], hm.2.symm⟩

theorem patAt_wsCollapse_pullback (ps : List (Char → Bool)) (hps : PatNonWs ps) :
    ∀ x, patAt ps (wsCollapse x) = true → patAt ps x = true := by
  induction ps with
  | nil => intro x _; rfl
  | cons p ps ih =>
    intro x h
    cases hm : wsCollapse x with
    | nil =>
      rw [hm] at h
      exact absurd h (by simp [patAt])
    | cons y m2 =>
      rw [hm, patAt, Bool.and_eq_true] at h
      have hynw : y.isWhitespace = false := hps p (List.mem_cons_self _ _) y h.1
      obtain ⟨x2, rfl, hm2⟩ := wsCollapse_cons_inv hynw hm
      rw [patAt, Bool.and_eq_true]
      refine ⟨h.1, ih (fun q hq d hd => hps q (List.mem_cons_of_mem _ hq) d hd) x2 ?_⟩
      rw [← hm2]
      exact h.2

theorem hasPat_wsCollapse_pullback (ps : List (Char → Bool)) (hps : PatNonWs ps) :
    ∀ l, hasPat ps (wsCollapse l) = true → hasPat ps l = true := by
  intro l
  induction l using wsCollapse.induct with
  | case1 => intro h; exact h
  | case2 c hw =>
    intro h
    rw [wsCollapse, if_pos hw] at h
    rw [hasPat, Bool.or_eq_true] at h
    rcases h with h | h
    · have h2 : patAt ps (wsCollapse [c]) = true := by
        rw [wsCollapse, if_pos hw]
        exact h
      exact hasPat_of_patAt (patAt_wsCollapse_pullback ps hps _ h2)
    · exact hasPat_of_patAt (patAt_nil_true h _)
  | case3 c hw =>
    intro h
    rw [wsCollapse, if_neg hw] at h
    exact h
  | case4 c d rest h ih =>
    intro hp
    rw [wsCollapse, if_pos h] at hp
    exact hasPat_tail (ih hp)
  | case5 c d rest h ih =>
    intro hp
    rw [wsCollapse, if_neg h] at hp
    rw [hasPat, Bool.or_eq_true] at hp
    rcases hp with hp | hp
    · have h2 : patAt ps (wsCollapse (c :: d :: rest)) = true := by
        rw [wsCollapse, if_neg h]
        exact hp
      exact hasPat_of_patAt (patAt_wsCollapse_pullback ps hps _ h2)
    · exact hasPat_tail (ih hp)

/-- C7 (amended): `clean_text` is idempotent on every input that contains
none of the markdown tokens `**`, `__`, `~~`, `` ` `` (removing a markdown
token can splice the surrounding characters into a new URL match, which only
a second pass would strip — see the counterexample). -/
theorem clean_text_idem_no_markdown (s : String) (hmd : hasMdS s = false) :
    clean_text (some (clean_text (some s))) = clean_text (some s) := by
  have bfalse : ∀ b : Bool, (b = true → False) → b = false := by
    intro b hb
    cases b
    · rfl
    · exact absurd rfl hb
  have hvU : hasUrl (urlSub s.data) = false := urlSub_noUrl s.data
  obtain ⟨hvh, hvw⟩ := Bool.or_eq_false_iff.mp hvU
  obtain ⟨ht1, ht2, ht3, ht4⟩ := hasMd_false_parts (show hasMd s.data = false from hmd)
  have pullU : ∀ ps, PatNonWs ps → hasPat ps s.data = false →
      hasPat ps (urlSub s.data) = false := by
    intro ps hps hf
    refine bfalse _ fun htr => ?_
    have h2 := hasPat_urlSubF ps hps s.data.length s.data le_rfl htr
    rw [hf] at h2
    exact Bool.noConfusion h2
  have pullA : ∀ ps, PatAllowRefl ps → hasPat ps (urlSub s.data) = false →
      hasPat ps (allowSub (urlSub s.data)) = false := by
    intro ps hps hf
    refine bfalse _ fun htr => ?_
    have h2 := hasPat_allow_pullback ps hps _ htr
    rw [hf] at h2
    exact Bool.noConfusion h2
  set X := wsCollapse (allowSub (urlSub s.data)) with hX
  have pullC : ∀ ps, PatNonWs ps → hasPat ps (allowSub (urlSub s.data)) = false →
      hasPat ps X = false := by
    intro ps hps hf
    refine bfalse _ fun htr => ?_
    have h2 := hasPat_wsCollapse_pullback ps hps _ (by rw [← hX]; exact htr)
    rw [hf] at h2
    exact Bool.noConfusion h2
  have hsub := wsTrim_sub X
  have pullT : ∀ ps, hasPat ps X = false → hasPat ps (wsTrim X) = false := by
    intro ps hf
    refine bfalse _ fun htr => ?_
    have h2 := hasPat_sub_mono hsub htr
    rw [hf] at h2
    exact Bool.noConfusion h2
  -- markdown is an identity on the first pass
  have hvM : hasMd (urlSub s.data) = false := by
    unfold hasMd
    rw [pullU _ starPat_nonWs ht1, pullU _ underPat_nonWs ht2,
      pullU _ tildePat_nonWs ht3, pullU _ tickPat_nonWs ht4]
    rfl
  have hmdv : mdSub (urlSub s.data) = urlSub s.data := mdSub_id_of_noMd _ hvM
  -- the cleaned text u := wsTrim X carries no URL match, no markdown token,
  -- only allowed characters, no double whitespace, only plain spaces
  have hu_http : hasPat httpPat (wsTrim X) = false :=
    pullT _ (pullC _ httpPat_nonWs (pullA _ httpPat_allow_refl hvh))
  have hu_www : hasPat wwwPat (wsTrim X) = false :=
    pullT _ (pullC _ wwwPat_nonWs (pullA _ wwwPat_allow_refl hvw))
  have huU : hasUrl (wsTrim X) = false := by
    unfold hasUrl
    rw [hu_http, hu_www]
    rfl
  have huM : hasMd (wsTrim X) = false := by
    unfold hasMd
    rw [pullT _ (pullC _ starPat_nonWs (pullA _ starPat_allow_refl
          (pullU _ starPat_nonWs ht1))),
      pullT _ (pullC _ underPat_nonWs (pullA _ underPat_allow_refl
          (pullU _ underPat_nonWs ht2))),
      pullT _ (pullC _ tildePat_nonWs (pullA _ tildePat_allow_refl
          (pullU _ tildePat_nonWs ht3))),
      pullT _ (pullC _ tickPat_nonWs (pullA _ tickPat_allow_refl
          (pullU _ tickPat_nonWs ht4)))]
    rfl
  have huallow : ∀ c ∈ wsTrim X, allowedChar c = true := by
    intro c hc
    rcases wsCollapse_chars _ c (hsub.subset hc) with h2 | h2
    · exact allowSub_chars _ c h2
    · rw [h2]
      decide
  have hunoTwo : hasPat wsPat (wsTrim X) = false :=
    pullT _ (wsCollapse_noTwoWs _)
  have husp : allWsSpace (wsTrim X) = true := by
    have hXsp := wsCollapse_allWsSpace (allowSub (urlSub s.data))
    unfold allWsSpace at hXsp ⊢
    rw [List.all_eq_true] at hXsp ⊢
    exact fun c hc => hXsp c (hsub.subset hc)
  -- assemble the two passes
  have hclean1 : clean_text (some s) = ⟨wsTrim X⟩ := by
    rw [hX]
    show (⟨wsTrim (wsCollapse (allowSub (mdSub (urlSub s.data))))⟩ : String) = _
    rw [hmdv]
  rw [hclean1]
  show (⟨wsTrim (wsCollapse (allowSub (mdSub (urlSub (wsTrim X)))))⟩ : String) =
    (⟨wsTrim X⟩ : String)
  have e1 : urlSub (wsTrim X) = wsTrim X :=
    urlSubF_id_of_noUrl (wsTrim X).length (wsTrim X) huU
  rw [e1, mdSub_id_of_noMd _ huM, allowSub_id _ huallow,
    wsCollapse_id _ hunoTwo husp, wsTrim_idem]

/-- C7 witness: a markdown-free input on which `clean_text` is idempotent. -/
theorem clean_text_idem_witness :
    hasMdS "a  b! http://x.y c" = false ∧
    clean_text (some (clean_text (some "a  b! http://x.y c"))) =
      clean_text (some "a  b! http://x.y c") :=
  ⟨by decide, clean_text_idem_no_markdown "a  b! http://x.y c" (by decide)⟩

/-- C7 counterexample: removing the markdown backquote of `"ht`tp://x"`
splices together a URL; the first pass yields `"http: x"`, and cleaning that
again strips the now-visible URL, yielding `"x"` — so `clean_text` is not
idempotent. -/
theorem clean_text_not_idem :
    clean_text (some (clean_text (some "ht`tp://x"))) ≠
      clean_text (some "ht`tp://x") := by decide

end PropWatch
